import Mathlib

/-!
# Verification of `scripts/compile-contracts.ts` (TypeChain contract build script)

Shallow embedding of the build-orchestration script `src/scripts/compile-contracts.ts`.
The script discovers Solidity sources grouped by version directory, resets the output
directory, shells out to the compiler once per version, renames the flattened artifact
names that `solcjs` emits (recovering the original directory structure by probing the
filesystem), and copies auxiliary/prebuilt files.

Modelling conventions:
* JavaScript strings are modelled by Lean `String` (all inputs are ASCII, so
  JS UTF-16 `.length`/`.slice` agree with `String.length`/dropping characters).
* The filesystem is modelled as an association list from paths (lists of
  segments) to file contents; a directory exists iff some file lies strictly
  below it (the script never depends on empty directories).
* Thrown exceptions are modelled by `Except String` (the error code / message),
  and `recoverDirectories`' `throw new Error('unexpected exit')` by `Option`.
* `statSync(...).isDirectory()` (with the surrounding `try/catch` that turns any
  stat failure into `false`) is modelled by a boolean oracle on the probed path.
* JS `String.prototype.split` / `replace` (first occurrence) are re-implemented
  below on `List Char`; structural recursion (with an explicit fuel argument
  bounded by the string length where needed) keeps everything kernel-reducible.
-/

namespace CompileContracts

/-! ## JS string primitives on `List Char` -/

/-- JS `s.split(sep)` for a single-character separator `sep`
(`"".split('_') = [""]`, separators at the ends produce empty tokens). -/
def splitChar (sep : Char) : List Char → List (List Char)
  | [] => [[]]
  | c :: cs =>
    if c = sep then [] :: splitChar sep cs
    else
      match splitChar sep cs with
      | [] => [[c]]
      | t :: ts => (c :: t) :: ts

/-- Join token lists with a single-character separator (inverse of `splitChar`). -/
def joinChar (sep : Char) : List (List Char) → List Char
  | [] => []
  | [t] => t
  | t :: ts => t ++ sep :: joinChar sep (ts)

/-- Does `sep` occur as a contiguous subsequence of `s`?  (For nonempty `sep`;
mirrors the scan JS `indexOf` performs.) -/
def containsSeq (sep : List Char) : List Char → Bool
  | [] => false
  | c :: cs => sep.isPrefixOf (c :: cs) || containsSeq sep cs

/-- JS `s.split(sep)` for a multi-character separator: scan left to right,
splitting at each non-overlapping occurrence of `sep`.  `fuel` is an upper
bound on the scan length (use `s.length`); it only exists to make the
recursion structural. -/
def splitSeqF (sep : List Char) : Nat → List Char → List (List Char)
  | _, [] => [[]]
  | 0, s => [s]
  | fuel + 1, c :: cs =>
    if sep.isPrefixOf (c :: cs) then
      [] :: splitSeqF sep fuel ((c :: cs).drop sep.length)
    else
      match splitSeqF sep fuel cs with
      | [] => [[c]]
      | t :: ts => (c :: t) :: ts

/-- JS `s.replace(sep, repl)` for a plain-string pattern: replace only the
first occurrence of `sep` (the string is returned unchanged when `sep` does
not occur).  `fuel` as in `splitSeqF`. -/
def replaceFirstF (sep repl : List Char) : Nat → List Char → List Char
  | _, [] => []
  | 0, s => s
  | fuel + 1, c :: cs =>
    if sep.isPrefixOf (c :: cs) then
      repl ++ (c :: cs).drop sep.length
    else
      c :: replaceFirstF sep repl fuel cs

/-! ### `String` wrappers -/

/-- JS `path.split('_')` (and `'.'`, `'/'`): split a string on a single character. -/
def strSplitChar (sep : Char) (s : String) : List String :=
  (splitChar sep s.data).map String.mk

/-- JS `s.split("_sol_")`. -/
def strSplitSeq (sep s : String) : List String :=
  (splitSeqF sep.data s.data.length s.data).map String.mk

/-- JS `s.replace(".json", ".abi")` — first occurrence only. -/
def strReplaceFirst (sep repl s : String) : String :=
  String.mk (replaceFirstF sep.data repl.data s.data.length s.data)

/-- Does `sep` occur as a substring of `s`? -/
def strContainsSeq (sep s : String) : Bool :=
  containsSeq sep.data s.data

/-- Does `s` contain the character `c`? -/
def strContainsChar (c : Char) (s : String) : Bool :=
  s.data.contains c

/-- `s.startsWith p` (JS `String.prototype.startsWith` / regex `/^v/` test). -/
def strStartsWith (p s : String) : Bool :=
  p.data.isPrefixOf s.data

/-- `s.endsWith p` (used to model which names a `*.ext` glob pattern matches). -/
def strEndsWith (p s : String) : Bool :=
  p.data.isSuffixOf s.data

/-- JS `s.slice(n)` (drop the first `n` characters). -/
def strDrop (s : String) (n : Nat) : String :=
  String.mk (s.data.drop n)

/-- Number of characters (JS `s.length`; ASCII, so code units = characters). -/
def strLen (s : String) : Nat :=
  s.data.length

/-! ## `recoverDirectories`

```js
function recoverDirectories(cwd: string, path: string) {
  let res = './'
  let segments = path.split('_')
  let segment: string

  let i = 0
  while (segments.length && i++ < 5) {
    ;[segment, ...segments] = segments

    let isDirectory = false
    try {
      isDirectory = statSync(resolve(cwd, res, segment)).isDirectory()
    } catch {}

    if (isDirectory) res += segment + '/'
    else {
      if (segments.length) segments[0] = segment + '_' + segments[0]
      else return res + segment
    }
  }

  throw new Error('unexpected exit')
}
```

The `while` loop below becomes `recoverLoop`, structurally recursive on the
remaining probe budget (`i++ < 5` decrements the budget on every iteration).
`isDir` is the oracle for `statSync(resolve(cwd, res, segment)).isDirectory()`
applied to the relative path string `res ++ segment` (the `try/catch` makes a
failed `stat` count as `false`).  `none` models the thrown `Error`. -/

def recoverLoop (isDir : String → Bool) : Nat → String → List String → Option String
  | _, _, [] => none
  | 0, _, _ :: _ => none
  | fuel + 1, res, segment :: rest =>
    if isDir (res ++ segment) then
      recoverLoop isDir fuel (res ++ segment ++ "/") rest
    else
      match rest with
      | [] => some (res ++ segment)
      | r0 :: rtail => recoverLoop isDir fuel res ((segment ++ "_" ++ r0) :: rtail)

/-- `recoverDirectories(cwd, path)` with the directory-existence check
abstracted into `isDir` (probed on `"./" ++ committed segments ++ candidate`,
exactly the string the source passes to `resolve(cwd, res, segment)`). -/
def recoverDirectories (isDir : String → Bool) (path : String) : Option String :=
  recoverLoop isDir 5 "./" (strSplitChar '_' path)

/-! ## The renaming parse (body of the `for` loop of `renameOutputNames`)

```js
const DIRECTORY_PREFIX = `contracts_${version}_`
const relativePath = outputPath.slice(DIRECTORY_PREFIX.length)
let filePath: string, contractName: string, extension: string
;[filePath, contractName] = relativePath.split('_sol_')
;[contractName, extension] = contractName.split('.')
filePath = recoverDirectories(contractsRootDir, filePath)
const newName = `${filePath}/${contractName}.${extension}`
```

If the `_sol_` marker is missing, `contractName` is `undefined` and
`contractName.split('.')` throws a `TypeError` (modelled by `none`).  If
`contractName` contains no `'.'`, `extension` is `undefined` and the template
literal stringifies it as `"undefined"` — modelled literally. -/

/-- Parse one flattened artifact name: returns `(filePath, contractName,
extension)` where `filePath` is the result of `recoverDirectories`, or `none`
when the parse / recovery throws. -/
def renameParse (isDir : String → Bool) (version outputPath : String) :
    Option (String × String × String) :=
  let relativePath := strDrop outputPath (strLen ("contracts_" ++ version ++ "_"))
  match strSplitSeq "_sol_" relativePath with
  | filePath :: contractName :: _ =>
    let parts := strSplitChar '.' contractName
    let cName := parts.headD ""
    let ext := parts.getD 1 "undefined"
    (recoverDirectories isDir filePath).map fun fp => (fp, cName, ext)
  | _ => none

/-- The destination name `` `${filePath}/${contractName}.${extension}` ``
computed by `renameOutputNames` from a successful parse. -/
def newNameOf (fp cName ext : String) : String :=
  fp ++ "/" ++ cName ++ "." ++ ext

/-! ### Constructors used to state the round-trip property (C1)

The spec's flattened artifact name
`contracts_<version>_<P with separators and the .sol dot replaced by "_">_sol_<Iface>.<ext>`
for a source path `P = d1/…/dk/stem.sol`. -/

/-- Join tokens with `'_'` at the `String` level. -/
def joinTokens : List String → String
  | [] => ""
  | [t] => t
  | t :: ts => t ++ "_" ++ joinTokens ts

/-- The flattened artifact name the compiler emits for source path
`d1/…/dk/<stem>.sol` declaring `iface`, with artifact extension `ext`. -/
def flattenedName (version : String) (dirs : List String) (stem iface ext : String) : String :=
  "contracts_" ++ version ++ "_" ++ joinTokens (dirs ++ [stem]) ++ "_sol_" ++ iface ++ "." ++ ext

/-- The accumulator string `res` of `recoverDirectories` after committing
`dirs` as directory segments, starting from `res₀`. -/
def resAppend (res₀ : String) (dirs : List String) : String :=
  dirs.foldl (fun r d => r ++ d ++ "/") res₀

/-- `res` after committing `dirs` starting from the initial `"./"`. -/
def resOf (dirs : List String) : String :=
  resAppend "./" dirs

/-- The probe chain hypothesis: starting from accumulator `res₀`, every probe
`res ++ d` for the successive directory segments `d` of `dirs` reports an
existing directory. -/
def ChainOk (isDir : String → Bool) (res₀ : String) (dirs : List String) : Prop :=
  ∀ j, (h : j < dirs.length) → isDir (resAppend res₀ (dirs.take j) ++ dirs.get ⟨j, h⟩) = true

instance chainOkDecidable (isDir : String → Bool) (res₀ : String) (dirs : List String) :
    Decidable (ChainOk isDir res₀ dirs) := by
  unfold ChainOk
  exact Nat.decidableBallLT _ _

/-! ## Filesystem model

The script's effects are modelled over an association-list filesystem.  A
*file* is a path (list of name segments relative to the repository root
`rootDir`) with a string content; a *directory* exists iff some file lies
strictly below it (the script never depends on empty directories: every
directory it reads or probes contains files, and `mkdirSync` is immediately
followed by a `renameSync` into the created directory). -/

/-- A filesystem path: name segments relative to the repository root. -/
abbrev Path := List String

/-- The filesystem: association list from file paths to file contents
(lookup takes the first hit). -/
abbrev Fs := List (Path × String)

/-- Error codes carried by thrown filesystem errors. -/
abbrev Err := String

/-- Look up the content of the file at `p`. -/
def fsGet : Fs → Path → Option String
  | [], _ => none
  | (q, c) :: fs, p => if q = p then some c else fsGet fs p

/-- Write (create or overwrite) the file at `p`. -/
def fsWrite (fs : Fs) (p : Path) (c : String) : Fs :=
  (p, c) :: fs.filter (fun e => decide (e.1 ≠ p))

/-- `p` lies strictly below `d`. -/
def isUnder (d p : Path) : Bool :=
  d.isPrefixOf p && decide (d.length < p.length)

/-- A directory exists at `d` iff some file lies strictly below `d`
(`statSync(d).isDirectory()`). -/
def dirExists (fs : Fs) (d : Path) : Bool :=
  fs.any (fun e => isUnder d e.1)

/-- Keep the first occurrence of each element. -/
def dedupFirst : List String → List String
  | [] => []
  | x :: xs => x :: (dedupFirst xs).filter (fun y => decide (y ≠ x))

/-- Names of the immediate children of directory `d` (`readdirSync` listing,
in filesystem order). -/
def childNames (fs : Fs) (d : Path) : List String :=
  dedupFirst ((fs.filter (fun e => isUnder d e.1)).map (fun e => (e.1).getD d.length ""))

/-! ### The `glob` library (`glob.sync`, `nosort: false` default) -/

/-- Code-unit lexicographic comparison on character lists (the default JS
array sort used by `glob` on its matches). -/
def charsLe : List Char → List Char → Bool
  | [], _ => true
  | _ :: _, [] => false
  | a :: as, b :: bs =>
    if a.toNat < b.toNat then true
    else if b.toNat < a.toNat then false
    else charsLe as bs

/-- Lexicographic string comparison. -/
def strLe (a b : String) : Bool := charsLe a.data b.data

/-- Insert into a sorted list. -/
def insertSorted (x : String) : List String → List String
  | [] => [x]
  | y :: ys => if strLe x y then x :: y :: ys else y :: insertSorted x ys

/-- Insertion sort by `strLe` (the `glob` library sorts matches by default). -/
def sortStrs : List String → List String
  | [] => []
  | x :: xs => insertSorted x (sortStrs xs)

/-- Sortedness checker for `strLe`. -/
def isSortedLe : List String → Bool
  | [] => true
  | [_] => true
  | a :: b :: r => strLe a b && isSortedLe (b :: r)

/-- Render a relative path as the `/`-joined string `glob` returns. -/
def renderPath : Path → String
  | [] => ""
  | [s] => s
  | s :: ss => s ++ "/" ++ renderPath ss

/-- Parse a relative path string into segments, dropping empty and `"."`
segments exactly as `path.resolve` / `path.posix.join` normalise them away. -/
def parseRel (s : String) : Path :=
  (strSplitChar '/' s).filter (fun t => decide (t ≠ "") && decide (t ≠ "."))

/-- Relative segment paths of every entry lying strictly below `base`: each
file below `base`, and every directory implied by such a file (all nonempty
prefixes of the file's relative path). -/
def relEntries (fs : Fs) (base : Path) : List Path :=
  ((fs.filter (fun e => isUnder base e.1)).map (fun e => (e.1).drop base.length)).flatMap
    (fun rel => (List.range rel.length).map (fun k => rel.take (k + 1)))

/-- The matches of a `**/*<suffix>` glob under `base`, as relative path
strings, deduplicated and alphabetically sorted (the library default); such a
pattern matches directories as well as files. -/
def globSuffix (fs : Fs) (base : Path) (suffix : String) : List String :=
  sortStrs (dedupFirst (((relEntries fs base).filter
    (fun rel => match rel.getLast? with
      | some n => strEndsWith suffix n
      | none => false)).map renderPath))

/-! ### `findFiles` -/

/-- Fixed paths of the script: `contractsDir` and `outDir` relative to
`rootDir`, and the truffle-v5 fixture target of `copyTruffleV5`. -/
def contractsP : Path := ["contracts"]

/-- `outDir = resolve(contractsDir, 'compiled')`. -/
def outP : Path := ["contracts", "compiled"]

/-- `resolve(rootDir, 'packages/target-truffle-v5-test/contracts')`. -/
def truffleP : Path := ["packages", "target-truffle-v5-test", "contracts"]

/-- The record returned by `findFiles` (the fixed directory fields are the
constants above). -/
structure Files where
  contracts : List (String × List String)
  prebuiltAbis : List String

/-- `findFiles`: version groups are the top-level entries of `contractsDir`
that are directories and whose name starts with `"v"`, each mapped to the
sorted `./**/*.sol` glob below it; `prebuiltAbis` is the `**/*.json` glob
below `contractsDir` (run on the state before any cleanup). -/
def findFiles (fs : Fs) : Files :=
  let solidityVersionDirs := (childNames fs contractsP).filter
    (fun n => dirExists fs (contractsP ++ [n]) && strStartsWith "v" n)
  { contracts := solidityVersionDirs.map
      (fun v => (v, globSuffix fs (contractsP ++ [v]) ".sol")),
    prebuiltAbis := globSuffix fs contractsP ".json" }

/-! ### `removeOutDir` -/

/-- Delete everything at or below `d`. -/
def removeTree (fs : Fs) (d : Path) : Fs :=
  fs.filter (fun e => !(d.isPrefixOf e.1))

/-- `rmdirSync(outDir, { recursive: true })`: removes the subtree, throwing
`ENOENT` when nothing exists at or below the path. -/
def rmdirRec (fs : Fs) (d : Path) : Except Err Fs :=
  if fs.any (fun e => d.isPrefixOf e.1) then .ok (removeTree fs d)
  else .error "ENOENT"

/-- The `try`/`catch` of `removeOutDir`: `ENOENT` is swallowed (the run
proceeds, filesystem unchanged), any other error is rethrown. -/
def removeOutDirHandle (fs : Fs) : Except Err Fs → Except Err Fs
  | .ok fs' => .ok fs'
  | .error e => if e = "ENOENT" then .ok fs else .error e

/-- `removeOutDir`. -/
def removeOutDir (fs : Fs) : Except Err Fs :=
  removeOutDirHandle fs (rmdirRec fs outP)

/-! ### `generateABIs` -/

/-- `dirName.replace(/^v/, '^')`. -/
def semverOf (v : String) : String :=
  if strStartsWith "v" v then "^" ++ strDrop v 1 else v

/-- Join with single spaces (`Array.prototype.join(' ')`). -/
def joinSpace : List String → String
  | [] => ""
  | [s] => s
  | s :: ss => s ++ " " ++ joinSpace ss

/-- The `execSync` command string built for one version group
(`posix.join('contracts', dirName, s)` normalises the `./` that the sol glob
may carry, so the model joins the plain relative paths). -/
def mkCmd (dirName : String) (filePaths : List String) : String :=
  "pnpm --package solc@" ++ semverOf dirName ++ " dlx solcjs --abi "
    ++ joinSpace (filePaths.map (fun s => "contracts/" ++ dirName ++ "/" ++ s))
    ++ " --bin -o ./contracts/compiled/" ++ dirName

/-- The external compiler as an oracle: a command string either fails
(non-zero exit — `execSync` throws) or writes files (repository-root-relative
paths with contents). -/
abbrev Exec := String → Except Err (List (Path × String))

/-- The invocation trace of `generateABIs`: the commands dispatched, in
order, paired with the error that aborted the loop (if any). -/
def genTrace (exec : Exec) : List (String × List String) → List String × Option Err
  | [] => ([], none)
  | (v, fls) :: gs =>
    match exec (mkCmd v fls) with
    | .error e => ([mkCmd v fls], some e)
    | .ok _ =>
      let t := genTrace exec gs
      (mkCmd v fls :: t.1, t.2)

/-- `generateABIs` acting on the filesystem: run each version group's
invocation in order, writing the files the compiler produces; the first
failure aborts the whole run. -/
def generateABIs (exec : Exec) : List (String × List String) → Fs → Except Err Fs
  | [], fs => .ok fs
  | (v, fls) :: gs, fs =>
    match exec (mkCmd v fls) with
    | .error e => .error e
    | .ok writes =>
      generateABIs exec gs (writes.foldl (fun a w => fsWrite a w.1 w.2) fs)

/-! ### `renameOutputNames` -/

/-- `statSync(resolve(cwd, s)).isDirectory()` for a probe string `s` of the
form `"./a/b"`, relative to the root path `cwd` (the `try`/`catch` makes a
missing path count as `false`). -/
def probeFs (fs : Fs) (cwd : Path) (s : String) : Bool :=
  dirExists fs (cwd ++ parseRel s)

/-- `renameSync(src, dst)` (moving a file, or a directory subtree); `ENOENT`
when the source does not exist. -/
def moveTree (fs : Fs) (src dst : Path) : Except Err Fs :=
  let sub := fs.filter (fun e => src.isPrefixOf e.1)
  if sub.isEmpty then .error "ENOENT"
  else
    .ok (sub.foldl (fun a e => fsWrite a (dst ++ (e.1).drop src.length) e.2)
      (fs.filter (fun e => !(src.isPrefixOf e.1))))

/-- Process the (pre-snapshot) `readdirSync(directory)` entries of one
version's output directory: parse each flattened name (probing the version's
*source* root), create the recovered directory (implicit in this model) and
`renameSync` the artifact to its new name.  A parse or recovery failure
throws. -/
def renameEntries (version : String) : List String → Fs → Except Err Fs
  | [], fs => .ok fs
  | n :: ns, fs =>
    match renameParse (probeFs fs (contractsP ++ [version])) version n with
    | none => .error "unexpected exit"
    | some (fp, cName, ext) =>
      match moveTree fs (outP ++ [version] ++ [n])
          (outP ++ [version] ++ parseRel (newNameOf fp cName ext)) with
      | .error e => .error e
      | .ok fs' => renameEntries version ns fs'

/-- `renameOutputNames`: for each version of the mapping, in order, snapshot
the output directory listing (`readdirSync` throws `ENOENT` when the
directory does not exist) and rename every listed entry. -/
def renameOutputNames : List (String × List String) → Fs → Except Err Fs
  | [], fs => .ok fs
  | (v, _) :: gs, fs =>
    if dirExists fs (outP ++ [v]) then
      match renameEntries v (childNames fs (outP ++ [v])) fs with
      | .error e => .error e
      | .ok fs' => renameOutputNames gs fs'
    else .error "ENOENT"

/-! ### `copyTruffleV5` and `copyPrebuiltABIs` -/

/-- `copySync(src, dst)`: recursive subtree copy (overwriting at the
destination); `ENOENT` when the source does not exist. -/
def copyTree (fs : Fs) (src dst : Path) : Except Err Fs :=
  let sub := fs.filter (fun e => src.isPrefixOf e.1)
  if sub.isEmpty then .error "ENOENT"
  else .ok (sub.foldl (fun a e => fsWrite a (dst ++ (e.1).drop src.length) e.2) fs)

/-- `copyTruffleV5`: copy the hard-coded `['v0.6.4']` version directories
into the truffle-v5 test fixture area. -/
def copyTruffleV5 (fs : Fs) : Except Err Fs :=
  copyTree fs (contractsP ++ ["v0.6.4"]) (truffleP ++ ["v0.6.4"])

/-- `copyPrebuiltABIs`: copy each discovered prebuilt file from
`resolve(contractsDir, filepath)` to
`resolve(outDir, filepath.replace('.json', '.abi'))`. -/
def copyPrebuiltABIs : List String → Fs → Except Err Fs
  | [], fs => .ok fs
  | p :: ps, fs =>
    match copyTree fs (contractsP ++ parseRel p)
        (outP ++ parseRel (strReplaceFirst ".json" ".abi" p)) with
    | .error e => .error e
    | .ok fs' => copyPrebuiltABIs ps fs'

/-! ### `main` -/

/-- `main()`: discovery first — in particular the prebuilt `**/*.json` glob
runs *before* the output directory is removed — then the five steps in
program order.  Any thrown error aborts the remainder of the run. -/
def mainModel (exec : Exec) (fs : Fs) : Except Err Fs :=
  let files := findFiles fs
  match removeOutDir fs with
  | .error e => .error e
  | .ok fs1 =>
    match generateABIs exec files.contracts fs1 with
    | .error e => .error e
    | .ok fs2 =>
      match renameOutputNames files.contracts fs2 with
      | .error e => .error e
      | .ok fs3 =>
        match copyTruffleV5 fs3 with
        | .error e => .error e
        | .ok fs4 => copyPrebuiltABIs files.prebuiltAbis fs4

/-- Restriction of a filesystem to the output tree (the artifact set a run
produces; "byte-identical output trees" compares these). -/
def outTree (fs : Fs) : Fs :=
  fs.filter (fun e => outP.isPrefixOf e.1)

/-- Restriction to the source area: everything under `contracts/` except the
output tree. -/
def srcTree (fs : Fs) : Fs :=
  fs.filter (fun e => contractsP.isPrefixOf e.1 && !(outP.isPrefixOf e.1))

/-- Did the run succeed? -/
def isOkE (r : Except Err Fs) : Bool :=
  match r with
  | .ok _ => true
  | .error _ => false

/-- The error of a failed run. -/
def errOf (r : Except Err Fs) : Option Err :=
  match r with
  | .ok _ => none
  | .error e => some e

/-- The resulting filesystem of a successful run. -/
def okOf (r : Except Err Fs) : Option Fs :=
  match r with
  | .ok f => some f
  | .error _ => none

/-- Two consecutive runs of `main` (the second on the filesystem the first
produced; a failure of either run is the overall failure). -/
def mainTwice (exec : Exec) (fs : Fs) : Except Err Fs :=
  match mainModel exec fs with
  | .error e => .error e
  | .ok fs1 => mainModel exec fs1

/-- Agreement of two run results: both fail with the same error, or both
succeed with the same source restriction and the same output tree.  (The
relation used to show that a run's outcome is determined by the source area
and the prebuilt glob.) -/
def ExAgree (x y : Except Err Fs) : Prop :=
  match x, y with
  | .ok a, .ok b => srcTree a = srcTree b ∧ outTree a = outTree b
  | .error e, .error e' => e = e'
  | _, _ => False

end CompileContracts

namespace CompileContracts

/-! ## Basic facts about the string primitives -/

theorem data_append (a b : String) : (a ++ b).data = a.data ++ b.data := by
  cases a; cases b; rfl

theorem str_ext {a b : String} (h : a.data = b.data) : a = b := by
  cases a; cases b; cases h; rfl

theorem strMk_data (a : String) : String.mk a.data = a := by
  cases a; rfl

theorem strAppend_assoc (a b c : String) : a ++ b ++ c = a ++ (b ++ c) := by
  apply str_ext; simp [data_append]

theorem isPrefixOf_eq_true_iff {l₁ l₂ : List Char} :
    l₁.isPrefixOf l₂ = true ↔ l₁ <+: l₂ :=
  List.isPrefixOf_iff_prefix

theorem prefixTrans {l₁ l₂ l₃ : List Char} (h1 : l₁ <+: l₃) (h2 : l₂ <+: l₃)
    (h : l₁.length ≤ l₂.length) : l₁ <+: l₂ :=
  List.prefix_of_prefix_length_le h1 h2 h

theorem splitChar_ne_nil (sep : Char) (s : List Char) : splitChar sep s ≠ [] := by
  cases s with
  | nil => simp [splitChar]
  | cons c cs =>
    simp only [splitChar]
    split
    · simp
    · split <;> simp

theorem strSplitChar_ne_nil (sep : Char) (s : String) : strSplitChar sep s ≠ [] := by
  simpa [strSplitChar] using splitChar_ne_nil sep s.data

theorem splitChar_cons_sep (sep : Char) (t rest : List Char) (h : sep ∉ t) :
    splitChar sep (t ++ sep :: rest) = t :: splitChar sep rest := by
  induction t with
  | nil => simp [splitChar]
  | cons c t ih =>
    have hc : ¬ c = sep := fun hcs => h (hcs ▸ List.mem_cons_self c t)
    have ht : sep ∉ t := fun hm => h (List.mem_cons_of_mem c hm)
    simp only [List.cons_append, splitChar, if_neg hc, List.append_eq, ih ht]

theorem splitChar_of_not_mem (sep : Char) (s : List Char) (h : sep ∉ s) :
    splitChar sep s = [s] := by
  induction s with
  | nil => rfl
  | cons c cs ih =>
    have hc : ¬ c = sep := fun hcs => h (hcs ▸ List.mem_cons_self c cs)
    have hcs : sep ∉ cs := fun hm => h (List.mem_cons_of_mem c hm)
    simp only [splitChar, if_neg hc, ih hcs]

theorem joinChar_splitChar (sep : Char) (s : List Char) :
    joinChar sep (splitChar sep s) = s := by
  induction s with
  | nil => rfl
  | cons c cs ih =>
    by_cases hc : c = sep
    · subst hc
      rcases hsp : splitChar c cs with _ | ⟨t, ts⟩
      · exact absurd hsp (splitChar_ne_nil c cs)
      · simp only [splitChar, if_pos rfl, hsp, joinChar]
        rw [← hsp, ih]
        rfl
    · rcases hsp : splitChar sep cs with _ | ⟨t, ts⟩
      · exact absurd hsp (splitChar_ne_nil sep cs)
      · cases ts with
        | nil =>
          simp only [splitChar, if_neg hc, hsp, joinChar]
          have : joinChar sep [t] = cs := by rw [← hsp, ih]
          simpa [joinChar] using this
        | cons t₂ ts₂ =>
          simp only [splitChar, if_neg hc, hsp, joinChar, List.cons_append]
          have : joinChar sep (t :: t₂ :: ts₂) = cs := by rw [← hsp, ih]
          simpa [joinChar] using this

theorem joinTokens_data : ∀ ts : List String, (joinTokens ts).data = joinChar '_' (ts.map String.data)
  | [] => rfl
  | [t] => rfl
  | t :: t₂ :: ts => by
    simp only [joinTokens, List.map_cons, joinChar, data_append]
    have : ("_" : String).data = ['_'] := rfl
    rw [joinTokens_data (t₂ :: ts)]
    simp [this, List.map_cons, joinChar]

theorem joinTokens_strSplitChar (s : String) : joinTokens (strSplitChar '_' s) = s := by
  apply str_ext
  rw [joinTokens_data]
  have : (strSplitChar '_' s).map String.data = splitChar '_' s.data := by
    have hid : String.data ∘ String.mk = id := funext fun _ => rfl
    simp [strSplitChar, List.map_map, hid]
  rw [this, joinChar_splitChar]

theorem joinTokens_cons (t : String) (ts : List String) (h : ts ≠ []) :
    joinTokens (t :: ts) = t ++ "_" ++ joinTokens ts := by
  cases ts with
  | nil => exact absurd rfl h
  | cons t₂ ts₂ => rfl

theorem joinTokens_merge (a b : String) (l : List String) :
    joinTokens ((a ++ "_" ++ b) :: l) = joinTokens (a :: b :: l) := by
  cases l with
  | nil => rfl
  | cons c l' =>
    simp only [joinTokens, strAppend_assoc]

/-- Splitting the flattened fragment on `'_'` recovers the directory tokens
(followed by the split of the stem), provided no directory name contains `'_'`. -/
theorem strSplitChar_flatten (dirs : List String) (stem : String)
    (h : ∀ d ∈ dirs, strContainsChar '_' d = false) :
    strSplitChar '_' (joinTokens (dirs ++ [stem])) = dirs ++ strSplitChar '_' stem := by
  induction dirs with
  | nil => rfl
  | cons d ds ih =>
    have hd : '_' ∉ d.data := by
      simpa [strContainsChar] using h d (List.mem_cons_self d ds)
    have hds : ∀ x ∈ ds, strContainsChar '_' x = false :=
      fun x hx => h x (List.mem_cons_of_mem d hx)
    have hne : ds ++ [stem] ≠ [] := by simp
    rw [List.cons_append, joinTokens_cons d (ds ++ [stem]) hne]
    have hdata : (d ++ "_" ++ joinTokens (ds ++ [stem])).data
        = d.data ++ '_' :: (joinTokens (ds ++ [stem])).data := by
      simp [data_append]
    unfold strSplitChar
    rw [hdata, splitChar_cons_sep '_' d.data _ hd]
    simp only [List.map_cons, strMk_data, List.cons_append]
    congr 1
    have := ih hds
    simpa [strSplitChar] using this

/-! ## Facts about `splitSeqF` (JS multi-character `split`) -/

theorem containsSeq_cons_false {sep : List Char} {c : Char} {cs : List Char}
    (h : containsSeq sep (c :: cs) = false) :
    sep.isPrefixOf (c :: cs) = false ∧ containsSeq sep cs = false := by
  simpa [containsSeq, Bool.or_eq_false_iff] using h

theorem splitSeqF_of_not_contains (sep : List Char) :
    ∀ (fuel : Nat) (s : List Char), containsSeq sep s = false → s.length ≤ fuel →
    splitSeqF sep fuel s = [s] := by
  intro fuel
  induction fuel with
  | zero =>
    intro s _ hlen
    cases s with
    | nil => rfl
    | cons c cs => simp at hlen
  | succ f ih =>
    intro s hc hlen
    cases s with
    | nil => rfl
    | cons c cs =>
      obtain ⟨h1, h2⟩ := containsSeq_cons_false hc
      simp only [splitSeqF, h1, Bool.false_eq_true, if_false]
      rw [ih cs h2 (by simpa using Nat.le_of_succ_le_succ hlen)]

theorem splitSeqF_append (sep : List Char) (hsep : sep ≠ []) :
    ∀ (a : List Char) (fuel : Nat) (b : List Char),
    containsSeq sep (a ++ sep.dropLast) = false →
    containsSeq sep b = false →
    (a ++ sep ++ b).length ≤ fuel →
    splitSeqF sep fuel (a ++ sep ++ b) = [a, b] := by
  intro a
  induction a with
  | nil =>
    intro fuel b _ hb hlen
    obtain ⟨s0, sep', hse⟩ : ∃ s0 sep', sep = s0 :: sep' := by
      cases sep with
      | nil => exact absurd rfl hsep
      | cons x xs => exact ⟨x, xs, rfl⟩
    subst hse
    cases fuel with
    | zero => simp at hlen
    | succ f =>
      have hshape : ([] : List Char) ++ (s0 :: sep') ++ b = s0 :: (sep' ++ b) := by simp
      rw [hshape]
      have hpre' : (s0 :: sep').isPrefixOf (s0 :: (sep' ++ b)) = true := by
        rw [isPrefixOf_eq_true_iff]
        have hx : s0 :: (sep' ++ b) = (s0 :: sep') ++ b := by simp
        rw [hx]
        exact List.prefix_append _ _
      simp only [splitSeqF, hpre', if_true]
      have hdrop : (s0 :: (sep' ++ b)).drop (s0 :: sep').length = b := by
        have hx : s0 :: (sep' ++ b) = (s0 :: sep') ++ b := by simp
        rw [hx]
        exact List.drop_left _ _
      rw [hdrop]
      have hblen : b.length ≤ f := by
        simp only [List.nil_append, List.length_append, List.length_cons] at hlen
        omega
      rw [splitSeqF_of_not_contains (s0 :: sep') f b hb hblen]
  | cons c a' ih =>
    intro fuel b ha hb hlen
    cases fuel with
    | zero => simp at hlen
    | succ f =>
      have hshape : (c :: a') ++ sep ++ b = c :: (a' ++ sep ++ b) := by simp
      rw [hshape]
      obtain ⟨h1, h2⟩ := containsSeq_cons_false (by simpa using ha)
      have hpre : sep.isPrefixOf (c :: (a' ++ sep ++ b)) = false := by
        by_contra hcon
        have htrue : sep.isPrefixOf (c :: (a' ++ sep ++ b)) = true := by
          revert hcon; cases sep.isPrefixOf (c :: (a' ++ sep ++ b)) <;> simp
        rw [isPrefixOf_eq_true_iff] at htrue
        have hrest : sep.dropLast ++ [sep.getLast hsep] = sep :=
          List.dropLast_append_getLast hsep
        have hmid : (c :: (a' ++ sep.dropLast)) <+: (c :: (a' ++ sep ++ b)) := by
          refine ⟨sep.getLast hsep :: b, ?_⟩
          calc (c :: (a' ++ sep.dropLast)) ++ sep.getLast hsep :: b
              = c :: (a' ++ ((sep.dropLast ++ [sep.getLast hsep]) ++ b)) := by
                simp [List.append_assoc]
            _ = c :: (a' ++ (sep ++ b)) := by rw [hrest]
            _ = c :: (a' ++ sep ++ b) := by rw [List.append_assoc]
        have hone : 1 ≤ sep.length := by
          cases sep with
          | nil => exact absurd rfl hsep
          | cons x xs => simp
        have hlen2 : sep.length ≤ (c :: (a' ++ sep.dropLast)).length := by
          simp only [List.length_cons, List.length_append, List.length_dropLast]
          omega
        have hfin := prefixTrans htrue hmid hlen2
        rw [← isPrefixOf_eq_true_iff] at hfin
        rw [hfin] at h1
        exact absurd h1 (by simp)
      simp only [splitSeqF, hpre, Bool.false_eq_true, if_false]
      have hlen' : (a' ++ sep ++ b).length ≤ f := by
        simp only [List.cons_append, List.length_cons, List.length_append] at hlen ⊢
        omega
      rw [ih f b h2 hb hlen']

/-- The `String`-level consequence used by the renaming parse: splitting
`frag ++ "_sol_" ++ tail` on the marker yields exactly `[frag, tail]` when
neither piece contains a stray occurrence of the marker. -/
theorem strSplitSeq_marker (frag tail : String)
    (hfrag : strContainsSeq "_sol_" (frag ++ "_sol") = false)
    (htail : strContainsSeq "_sol_" tail = false) :
    strSplitSeq "_sol_" (frag ++ "_sol_" ++ tail) = [frag, tail] := by
  have hdata : (frag ++ "_sol_" ++ tail).data
      = frag.data ++ ("_sol_" : String).data ++ tail.data := by
    simp [data_append]
  have hdrop : (("_sol_" : String).data).dropLast = ("_sol" : String).data := rfl
  have hfrag' : containsSeq ("_sol_" : String).data
      (frag.data ++ (("_sol_" : String).data).dropLast) = false := by
    rw [hdrop]
    have : (frag ++ "_sol").data = frag.data ++ ("_sol" : String).data := data_append _ _
    simpa [strContainsSeq, this] using hfrag
  have htail' : containsSeq ("_sol_" : String).data tail.data = false := htail
  unfold strSplitSeq
  rw [hdata, splitSeqF_append ("_sol_" : String).data (by simp) frag.data _ tail.data
    hfrag' htail' (le_refl _)]
  simp [strMk_data]

/-! ## Facts about `recoverLoop` -/

theorem resAppend_nil (res : String) : resAppend res [] = res := rfl

theorem resAppend_cons (res d : String) (ds : List String) :
    resAppend res (d :: ds) = resAppend (res ++ d ++ "/") ds := rfl

theorem chainOk_shift {isDir : String → Bool} {res d : String} {ds : List String}
    (h : ChainOk isDir res (d :: ds)) : ChainOk isDir (res ++ d ++ "/") ds := by
  intro j hj
  have := h (j + 1) (by simpa using Nat.succ_lt_succ hj)
  simpa [List.take_succ_cons, resAppend_cons] using this

/-- Directory phase of the probe loop: with every probe along `dirs` reporting
an existing directory, the loop commits all of `dirs` (each commit consumes one
unit of budget) and continues on `rest` from the extended accumulator. -/
theorem recoverLoop_commit (isDir : String → Bool) (dirs : List String) :
    ∀ (rest : List String) (fuel : Nat) (res : String), ChainOk isDir res dirs →
    dirs.length ≤ fuel →
    recoverLoop isDir fuel res (dirs ++ rest)
      = recoverLoop isDir (fuel - dirs.length) (resAppend res dirs) rest := by
  induction dirs with
  | nil => intro rest fuel res _ _; simp [resAppend_nil]
  | cons d ds ih =>
    intro rest fuel res hchain hlen
    cases fuel with
    | zero => simp at hlen
    | succ f =>
      have h0 : isDir (res ++ d) = true := by
        have := hchain 0 (by simp)
        simpa [resAppend_nil] using this
      simp only [List.cons_append, recoverLoop, h0, if_true, List.append_eq]
      rw [ih rest f (res ++ d ++ "/") (chainOk_shift hchain)
        (Nat.le_of_succ_le_succ (by simpa using hlen))]
      simp [resAppend_cons, Nat.succ_sub_succ]

/-- Filename phase of the probe loop: when every (re-joined) candidate probe
reports "not a directory", the loop keeps merging tokens and finally returns
the accumulator followed by the fully re-joined leftover text. -/
theorem recoverLoop_reject (isDir : String → Bool) :
    ∀ (fuel : Nat) (res : String) (ts : List String), ts ≠ [] →
    (∀ m, m < ts.length → isDir (res ++ joinTokens (ts.take (m + 1))) = false) →
    ts.length ≤ fuel →
    recoverLoop isDir fuel res ts = some (res ++ joinTokens ts) := by
  intro fuel
  induction fuel with
  | zero =>
    intro res ts hne hprobe hlen
    cases ts with
    | nil => exact absurd rfl hne
    | cons t ts' => simp at hlen
  | succ f ih =>
    intro res ts hne hprobe hlen
    match ts with
    | [t] =>
      have h0 := hprobe 0 (by simp)
      simp only [List.take_succ_cons, List.take_nil, joinTokens] at h0
      simp [recoverLoop, h0, joinTokens]
    | t₁ :: t₂ :: ts' =>
      have h0 := hprobe 0 (by simp)
      simp only [List.take_succ_cons, List.take_nil, joinTokens] at h0
      simp only [recoverLoop, h0, Bool.false_eq_true, if_false]
      rw [ih res ((t₁ ++ "_" ++ t₂) :: ts') (by simp) ?_ (by simpa using Nat.le_of_succ_le_succ hlen)]
      · rw [joinTokens_merge]
      · intro m hm
        have := hprobe (m + 1) (by simpa using Nat.succ_lt_succ (by simpa using hm))
        have htake : ((t₁ ++ "_" ++ t₂) :: ts').take (m + 1) = (t₁ ++ "_" ++ t₂) :: ts'.take m := by
          simp [List.take_succ_cons]
        rw [htake, joinTokens_merge]
        simpa [List.take_succ_cons] using this

end CompileContracts

namespace CompileContracts

/-! ## Further helper lemmas -/

theorem strDrop_append (a b : String) : strDrop (a ++ b) (strLen a) = b := by
  apply str_ext
  simp only [strDrop, strLen, data_append]
  exact List.drop_left _ _

theorem strSplitChar_not_contains (sep : Char) (s : String)
    (h : strContainsChar sep s = false) : strSplitChar sep s = [s] := by
  unfold strSplitChar
  rw [splitChar_of_not_mem sep s.data (by simpa [strContainsChar] using h)]
  simp [strMk_data]

theorem strSplitChar_dot_append (a b : String) (h : strContainsChar '.' a = false) :
    strSplitChar '.' (a ++ "." ++ b) = a :: strSplitChar '.' b := by
  unfold strSplitChar
  have hdata : (a ++ "." ++ b).data = a.data ++ '.' :: b.data := by
    simp [data_append]
  rw [hdata, splitChar_cons_sep '.' a.data b.data (by simpa [strContainsChar] using h)]
  simp [strMk_data]

theorem chainOk_take {isDir : String → Bool} {res : String} {dirs : List String}
    (h : ChainOk isDir res dirs) (m : Nat) : ChainOk isDir res (dirs.take m) := by
  intro j hj
  have hjm : j < min m dirs.length := by simpa [List.length_take] using hj
  have hj' : j < dirs.length := lt_of_lt_of_le hjm (min_le_right _ _)
  have htake : (dirs.take m).take j = dirs.take j := by
    rw [List.take_take]
    congr 1
    omega
  have hget : (dirs.take m).get ⟨j, hj⟩ = dirs.get ⟨j, hj'⟩ := by
    simp [List.get_eq_getElem, List.getElem_take]
  rw [htake, hget]
  exact h j hj'

theorem strSplitChar_joinTokens_all (dirs : List String) (hne : dirs ≠ [])
    (h : ∀ d ∈ dirs, strContainsChar '_' d = false) :
    strSplitChar '_' (joinTokens dirs) = dirs := by
  have hdecomp : dirs = dirs.dropLast ++ [dirs.getLast hne] :=
    (List.dropLast_append_getLast hne).symm
  rw [hdecomp, strSplitChar_flatten _ _
    (fun d hd => h d (hdecomp ▸ List.mem_append_left _ hd)),
    strSplitChar_not_contains '_' _ (h _ (List.getLast_mem hne))]

theorem recoverLoop_probe_false (isDir : String → Bool) :
    ∀ (fuel : Nat) (res : String) (segs : List String) (r : String),
    recoverLoop isDir fuel res segs = some r → isDir r = false := by
  intro fuel
  induction fuel with
  | zero =>
    intro res segs r h
    cases segs with
    | nil => simp [recoverLoop] at h
    | cons a b => simp [recoverLoop] at h
  | succ f ih =>
    intro res segs r h
    cases segs with
    | nil => simp [recoverLoop] at h
    | cons seg rest =>
      by_cases hd : isDir (res ++ seg) = true
      · rw [show recoverLoop isDir (f + 1) res (seg :: rest)
            = recoverLoop isDir f (res ++ seg ++ "/") rest from by simp [recoverLoop, hd]] at h
        exact ih _ _ _ h
      · have hd' : isDir (res ++ seg) = false := by
          revert hd; cases isDir (res ++ seg) <;> simp
        cases rest with
        | nil =>
          simp only [recoverLoop, hd', Bool.false_eq_true, if_false, Option.some.injEq] at h
          rw [← h]
          exact hd'
        | cons r0 rtail =>
          rw [show recoverLoop isDir (f + 1) res (seg :: r0 :: rtail)
              = recoverLoop isDir f res ((seg ++ "_" ++ r0) :: rtail) from by
            simp [recoverLoop, hd']] at h
          exact ih _ _ _ h

/-! ## Claims C1, C2, C3, C9 — the segment-probing recovery -/

/-- C1 (counterexample): the claimed depth ≤ 4 round-trip fails as stated.
For the source path `a/b/c_d_e_f.sol` (depth 2 ≤ 4, and every prefix
directory — `a` and `a/b` — exists), the flattened artifact name needs six
probe iterations (two directory commits plus four stem tokens), which
exhausts the budget of 5: the parse throws (`none`) instead of yielding the
path back. -/
theorem c1_counterexample :
    (["a", "b"] : List String).length ≤ 4
    ∧ ChainOk (fun s => (["./a", "./a/b"] : List String).contains s) "./" ["a", "b"]
    ∧ renameParse (fun s => (["./a", "./a/b"] : List String).contains s) "v0.8.9"
        (flattenedName "v0.8.9" ["a", "b"] "c_d_e_f" "IToken" "abi") = none := by
  refine ⟨by decide, by decide, by decide⟩

/-- C1 (amended): the round-trip holds under the conditions the code
actually needs: (i) directory names contain no underscore, (ii) the total
number of probe iterations — directory segments plus underscore-split stem
tokens — fits the budget of 5, (iii) every prefix directory exists
(`ChainOk`), (iv) no stem-token re-join collides with an existing directory,
(v) the `_sol_` marker occurs nowhere except as the separator, and (vi) the
interface name and extension are dot-free.  Then parsing the flattened name
yields exactly the recovered source path (with the `./` prefix the
accumulator starts from), the interface name, and the extension. -/
theorem c1_roundtrip_amended (isDir : String → Bool) (version : String)
    (dirs : List String) (stem iface ext : String)
    (hdirs : ∀ d ∈ dirs, strContainsChar '_' d = false)
    (hbudget : dirs.length + (strSplitChar '_' stem).length ≤ 5)
    (hchain : ChainOk isDir "./" dirs)
    (hprobe : ∀ m, m < (strSplitChar '_' stem).length →
      isDir (resOf dirs ++ joinTokens ((strSplitChar '_' stem).take (m + 1))) = false)
    (hmark : strContainsSeq "_sol_" (joinTokens (dirs ++ [stem]) ++ "_sol") = false)
    (htail : strContainsSeq "_sol_" (iface ++ "." ++ ext) = false)
    (hiface : strContainsChar '.' iface = false)
    (hext : strContainsChar '.' ext = false) :
    renameParse isDir version (flattenedName version dirs stem iface ext)
      = some (resOf dirs ++ stem, iface, ext) := by
  have hsT : strSplitChar '_' stem ≠ [] := strSplitChar_ne_nil '_' stem
  have hsTpos : 0 < (strSplitChar '_' stem).length := List.length_pos.mpr hsT
  have hflat : flattenedName version dirs stem iface ext
      = ("contracts_" ++ version ++ "_")
        ++ (joinTokens (dirs ++ [stem]) ++ "_sol_" ++ (iface ++ "." ++ ext)) := by
    simp [flattenedName, strAppend_assoc]
  rw [hflat]
  simp only [renameParse, strDrop_append,
    strSplitSeq_marker (joinTokens (dirs ++ [stem])) (iface ++ "." ++ ext) hmark htail]
  rw [strSplitChar_dot_append iface ext hiface, strSplitChar_not_contains '.' ext hext]
  unfold recoverDirectories
  rw [strSplitChar_flatten dirs stem hdirs,
    recoverLoop_commit isDir dirs (strSplitChar '_' stem) 5 "./" hchain (by omega),
    recoverLoop_reject isDir (5 - dirs.length) (resAppend "./" dirs) (strSplitChar '_' stem)
      hsT hprobe (by omega),
    joinTokens_strSplitChar]
  rfl

/-- C1 (witness for the amended round-trip): `a/b/My_File.sol` declaring
`IFace` with artifact extension `abi`, on a filesystem whose directories are
exactly `a` and `a/b`. -/
theorem c1_roundtrip_amended_witness :
    renameParse (fun s => (["./a", "./a/b"] : List String).contains s) "v0.8.9"
        (flattenedName "v0.8.9" ["a", "b"] "My_File" "IFace" "abi")
      = some (resOf ["a", "b"] ++ "My_File", "IFace", "abi") := by
  exact c1_roundtrip_amended _ "v0.8.9" ["a", "b"] "My_File" "IFace" "abi"
    (by decide) (by decide) (by decide) (by decide) (by decide) (by decide)
    (by decide) (by decide)

/-- C2: one iteration of the probe loop does exactly what the spec says:
an existing-directory probe commits the token (continuing with the extended
accumulator); a failed probe with tokens remaining re-joins the token onto
the front of the remaining text with the split-off underscore and continues
with one fewer unit of budget; a failed probe with no tokens remaining
returns the accumulated path plus the leftover text, terminating recovery
successfully. -/
theorem c2_probing_steps (isDir : String → Bool) (fuel : Nat) (res segment : String)
    (rest : List String) :
    (isDir (res ++ segment) = true →
      recoverLoop isDir (fuel + 1) res (segment :: rest)
        = recoverLoop isDir fuel (res ++ segment ++ "/") rest)
    ∧ (∀ r0 rtail, rest = r0 :: rtail → isDir (res ++ segment) = false →
      recoverLoop isDir (fuel + 1) res (segment :: rest)
        = recoverLoop isDir fuel res ((segment ++ "_" ++ r0) :: rtail))
    ∧ (rest = [] → isDir (res ++ segment) = false →
      recoverLoop isDir (fuel + 1) res (segment :: rest) = some (res ++ segment)) := by
  refine ⟨fun h => by simp [recoverLoop, h], fun r0 rtail hr h => ?_, fun hr h => ?_⟩
  · subst hr; simp [recoverLoop, h]
  · subst hr; simp [recoverLoop, h]

/-- C2 (witness): a commit step at a concrete state. -/
theorem c2_probing_steps_witness :
    recoverLoop (fun s => (["./a"] : List String).contains s) 5 "./" ["a", "b"]
      = recoverLoop (fun s => (["./a"] : List String).contains s) 4 ("./" ++ "a" ++ "/") ["b"] :=
  (c2_probing_steps (fun s => (["./a"] : List String).contains s) 4 "./" "a" ["b"]).1
    (by decide)

/-- C3: a flattened fragment whose first six underscore tokens are nested
existing directories exhausts the budget of 5 while tokens remain, so
`recoverDirectories` throws (`none`) — it never returns a truncated path. -/
theorem c3_depth6_fails (isDir : String → Bool) (dirs : List String) (stem : String)
    (hlen : dirs.length = 6)
    (hdirs : ∀ d ∈ dirs, strContainsChar '_' d = false)
    (hchain : ChainOk isDir "./" dirs) :
    recoverDirectories isDir (joinTokens (dirs ++ [stem])) = none := by
  unfold recoverDirectories
  rw [strSplitChar_flatten dirs stem hdirs]
  have hsplit : dirs ++ strSplitChar '_' stem
      = dirs.take 5 ++ (dirs.drop 5 ++ strSplitChar '_' stem) := by
    rw [← List.append_assoc, List.take_append_drop]
  have h5 : (dirs.take 5).length = 5 := by simp [List.length_take, hlen]
  rw [hsplit, recoverLoop_commit isDir (dirs.take 5) _ 5 "./" (chainOk_take hchain 5)
    (by omega), h5]
  obtain ⟨x, rest, hx⟩ : ∃ x rest, dirs.drop 5 ++ strSplitChar '_' stem = x :: rest := by
    rcases hdrop : dirs.drop 5 with _ | ⟨x, r⟩
    · have := congrArg List.length hdrop
      simp [hlen] at this
    · exact ⟨x, r ++ strSplitChar '_' stem, by simp [hdrop]⟩
  rw [hx]
  rfl

/-- C3 (witness): six nested directories `a/…/f` and stem `G`. -/
theorem c3_depth6_fails_witness :
    recoverDirectories
      (fun s => (["./a", "./a/b", "./a/b/c", "./a/b/c/d", "./a/b/c/d/e",
        "./a/b/c/d/e/f"] : List String).contains s)
      (joinTokens (["a", "b", "c", "d", "e", "f"] ++ ["G"])) = none := by
  exact c3_depth6_fails _ ["a", "b", "c", "d", "e", "f"] "G" (by decide) (by decide)
    (by decide)

/-- C9: (a) whenever `recoverDirectories` returns a path, the final probe on
that very path reported "not a directory" — a returned path always ends in a
filename segment, never in a committed directory; (b) if every underscore
token (the last included) names an existing directory along the chain, the
loop exits without returning (all tokens committed, or budget exhausted) and
`recoverDirectories` throws (`none`). -/
theorem c9_never_directory_only (isDir : String → Bool) :
    (∀ path r, recoverDirectories isDir path = some r → isDir r = false)
    ∧ (∀ dirs : List String, dirs ≠ [] →
        (∀ d ∈ dirs, strContainsChar '_' d = false) →
        ChainOk isDir "./" dirs →
        recoverDirectories isDir (joinTokens dirs) = none) := by
  constructor
  · intro path r h
    exact recoverLoop_probe_false isDir 5 "./" _ r h
  · intro dirs hne hus hchain
    unfold recoverDirectories
    rw [strSplitChar_joinTokens_all dirs hne hus]
    by_cases h5 : dirs.length ≤ 5
    · have hcommit := recoverLoop_commit isDir dirs [] 5 "./" hchain h5
      rw [List.append_nil] at hcommit
      rw [hcommit]
      simp [recoverLoop]
    · have hsplit : dirs = dirs.take 5 ++ dirs.drop 5 := (List.take_append_drop 5 dirs).symm
      have h5' : (dirs.take 5).length = 5 := by
        simp [List.length_take]
        omega
      conv_lhs => rw [hsplit]
      rw [recoverLoop_commit isDir (dirs.take 5) _ 5 "./" (chainOk_take hchain 5)
        (by omega), h5']
      obtain ⟨x, rest, hx⟩ : ∃ x rest, dirs.drop 5 = x :: rest := by
        rcases hdrop : dirs.drop 5 with _ | ⟨x, r⟩
        · have := congrArg List.length hdrop
          simp at this
          omega
        · exact ⟨x, r, rfl⟩
      rw [hx]
      rfl

/-- C9 (witness): part (a) at the recovered path `./a_b` (not a directory),
part (b) at the single-token fragment `a` where `a` is a directory. -/
theorem c9_never_directory_only_witness :
    (fun s => (["./a"] : List String).contains s) "./a/b" = false
    ∧ recoverDirectories (fun s => (["./a"] : List String).contains s)
        (joinTokens ["a"]) = none := by
  constructor
  · exact (c9_never_directory_only _).1 "a_b" "./a/b" (by decide)
  · exact (c9_never_directory_only _).2 ["a"] (by decide) (by decide) (by decide)

end CompileContracts

namespace CompileContracts

/-! ## Helper lemmas for the filesystem-level claims -/

theorem fsGet_removeTree (fs : Fs) (d p : Path) (h : d.isPrefixOf p = true) :
    fsGet (removeTree fs d) p = none := by
  induction fs with
  | nil => rfl
  | cons hd tl ih =>
    obtain ⟨q, c⟩ := hd
    by_cases hq : d.isPrefixOf q = true
    · simpa [removeTree, hq] using ih
    · have hq' : d.isPrefixOf q = false := by revert hq; cases d.isPrefixOf q <;> simp
      have hqp : ¬ q = p := by
        intro hcon
        rw [hcon] at hq'
        rw [h] at hq'
        exact absurd hq' (by simp)
      simp only [removeTree, List.filter_cons, hq', Bool.not_false, if_pos trivial]
      simpa [fsGet, hqp] using ih

theorem removeOutDir_eq (fs : Fs) : removeOutDir fs = .ok (removeTree fs outP) := by
  unfold removeOutDir rmdirRec
  by_cases hany : fs.any (fun e => outP.isPrefixOf e.1) = true
  · simp [hany, removeOutDirHandle]
  · have hany' : fs.any (fun e => outP.isPrefixOf e.1) = false := by
      revert hany; cases fs.any (fun e => outP.isPrefixOf e.1) <;> simp
    have hall : ∀ e ∈ fs, (outP.isPrefixOf e.1) = false := by
      intro e he
      rw [List.any_eq_false] at hany'
      have hne := hany' e he
      revert hne
      cases outP.isPrefixOf e.1 <;> simp
    have hsame : removeTree fs outP = fs := by
      unfold removeTree
      apply List.filter_eq_self.mpr
      intro e he
      simp [hall e he]
    simp [hany', removeOutDirHandle, hsame]

theorem charsLe_total (a : List Char) : ∀ b, charsLe a b = false → charsLe b a = true := by
  induction a with
  | nil => intro b h; simp [charsLe] at h
  | cons x xs ih =>
    intro b h
    cases b with
    | nil => simp [charsLe]
    | cons y ys =>
      simp only [charsLe] at h ⊢
      by_cases hxy : x.toNat < y.toNat
      · simp [hxy] at h
      · by_cases hyx : y.toNat < x.toNat
        · simp [hyx]
        · simp only [hxy, if_false, hyx] at h
          simp only [hyx, if_false, hxy]
          exact ih ys h

theorem strLe_total (a b : String) (h : strLe a b = false) : strLe b a = true :=
  charsLe_total a.data b.data h

theorem isSortedLe_cons_iff (a b : String) (l : List String) :
    isSortedLe (a :: b :: l) = true ↔ (strLe a b = true ∧ isSortedLe (b :: l) = true) := by
  simp [isSortedLe, Bool.and_eq_true]

theorem isSortedLe_insertSorted (x : String) (l : List String) (h : isSortedLe l = true) :
    isSortedLe (insertSorted x l) = true := by
  induction l with
  | nil => simp [insertSorted, isSortedLe]
  | cons y ys ih =>
    by_cases hxy : strLe x y = true
    · simpa [insertSorted, hxy, isSortedLe_cons_iff] using h
    · have hxy' : strLe x y = false := by revert hxy; cases strLe x y <;> simp
      have hyx : strLe y x = true := strLe_total x y hxy'
      cases ys with
      | nil => simp [insertSorted, hxy', isSortedLe, hyx]
      | cons z zs =>
        have hyz : strLe y z = true := ((isSortedLe_cons_iff y z zs).mp h).1
        have hsz : isSortedLe (z :: zs) = true := ((isSortedLe_cons_iff y z zs).mp h).2
        have hins := ih hsz
        by_cases hxz : strLe x z = true
        · have : insertSorted x (y :: z :: zs) = y :: x :: z :: zs := by
            simp [insertSorted, hxy', hxz]
          rw [this, isSortedLe_cons_iff, isSortedLe_cons_iff]
          exact ⟨hyx, hxz, hsz⟩
        · have hxz' : strLe x z = false := by revert hxz; cases strLe x z <;> simp
          have hshape : insertSorted x (y :: z :: zs) = y :: z :: insertSorted x zs := by
            simp [insertSorted, hxy', hxz']
          rw [hshape]
          have hins' : isSortedLe (z :: insertSorted x zs) = true := by
            have : insertSorted x (z :: zs) = z :: insertSorted x zs := by
              simp [insertSorted, hxz']
            rwa [this] at hins
          cases hzw : insertSorted x zs with
          | nil => simp [isSortedLe, hyz]
          | cons w ws =>
            rw [hzw] at hins'
            rw [isSortedLe_cons_iff]
            exact ⟨hyz, hins'⟩

theorem isSortedLe_sortStrs (l : List String) : isSortedLe (sortStrs l) = true := by
  induction l with
  | nil => rfl
  | cons x xs ih => exact isSortedLe_insertSorted x (sortStrs xs) ih

/-! ## Claim C4 — output reset -/

/-- C4: `removeOutDir` always succeeds with the output subtree removed —
in particular when the directory does not exist (`rmdirSync` throws `ENOENT`,
which the handler swallows, leaving the filesystem unchanged — and indeed
`removeTree` is the identity then); after it, no file remains under the
output directory; the handler rethrows any non-`ENOENT` error. -/
theorem c4_remove_out_dir (fs : Fs) (e : Err) (he : e ≠ "ENOENT") :
    removeOutDir fs = .ok (removeTree fs outP)
    ∧ (∀ p, outP.isPrefixOf p = true → fsGet (removeTree fs outP) p = none)
    ∧ removeOutDirHandle fs (.error "ENOENT") = .ok fs
    ∧ removeOutDirHandle fs (.error e) = .error e := by
  refine ⟨removeOutDir_eq fs, fun p hp => fsGet_removeTree fs outP p hp, rfl, ?_⟩
  simp [removeOutDirHandle, he]

/-- C4 (witness): a filesystem without an output directory, and the error
code `EACCES` as the non-`ENOENT` error. -/
theorem c4_remove_out_dir_witness :
    removeOutDir [(["contracts", "v0.6.4", "A.sol"], "src")]
      = .ok (removeTree [(["contracts", "v0.6.4", "A.sol"], "src")] outP)
    ∧ removeOutDirHandle [(["contracts", "v0.6.4", "A.sol"], "src")] (.error "EACCES")
      = .error "EACCES" :=
  ⟨(c4_remove_out_dir [(["contracts", "v0.6.4", "A.sol"], "src")] "EACCES"
      (by decide)).1,
   (c4_remove_out_dir [(["contracts", "v0.6.4", "A.sol"], "src")] "EACCES"
      (by decide)).2.2.2⟩

/-! ## Claim C5 — compilation dispatch -/

/-- C5: `generateABIs` dispatches exactly one external invocation per version
group, strictly in mapping order: when every invocation succeeds the trace is
exactly the per-group command list with no error; when the invocation of some
group fails (all earlier ones succeeding), the trace stops at that command —
the groups after it are never attempted — and the error aborts the run. -/
theorem c5_sequential_dispatch (exec : Exec) :
    (∀ groups : List (String × List String),
      (∀ g ∈ groups, ∃ w, exec (mkCmd g.1 g.2) = .ok w) →
      genTrace exec groups = (groups.map (fun g => mkCmd g.1 g.2), none))
    ∧ (∀ (pre : List (String × List String)) (g : String × List String)
        (post : List (String × List String)) (e : Err),
      (∀ g' ∈ pre, ∃ w, exec (mkCmd g'.1 g'.2) = .ok w) →
      exec (mkCmd g.1 g.2) = .error e →
      genTrace exec (pre ++ g :: post)
        = (pre.map (fun g' => mkCmd g'.1 g'.2) ++ [mkCmd g.1 g.2], some e)) := by
  constructor
  · intro groups h
    induction groups with
    | nil => rfl
    | cons g gs ih =>
      obtain ⟨w, hw⟩ := h g (List.mem_cons_self g gs)
      obtain ⟨v, fls⟩ := g
      simp only [genTrace, hw]
      rw [ih (fun g' hg' => h g' (List.mem_cons_of_mem _ hg'))]
      simp
  · intro pre g post e hpre hg
    induction pre with
    | nil =>
      obtain ⟨v, fls⟩ := g
      simp [genTrace, hg]
    | cons p ps ih =>
      obtain ⟨w, hw⟩ := hpre p (List.mem_cons_self p ps)
      obtain ⟨pv, pf⟩ := p
      simp only [List.cons_append, genTrace, hw, List.append_eq]
      rw [ih (fun g' hg' => hpre g' (List.mem_cons_of_mem _ hg'))]
      simp

/-- C5 (witness): two version groups where the second one's compiler exits
non-zero — the trace contains both commands (the first succeeded, the second
was attempted and failed) and the error; no further group would be tried. -/
theorem c5_sequential_dispatch_witness :
    genTrace
      (fun c => if c = mkCmd "v0.8.9" ["B.sol"] then .error "exit 1" else .ok [])
      ([("v0.6.4", ["A.sol"])] ++ ("v0.8.9", ["B.sol"]) :: [])
      = ([("v0.6.4", ["A.sol"])].map (fun g => mkCmd g.1 g.2)
          ++ [mkCmd "v0.8.9" ["B.sol"]], some "exit 1") := by
  refine (c5_sequential_dispatch _).2 [("v0.6.4", ["A.sol"])] ("v0.8.9", ["B.sol"]) [] "exit 1"
    ?_ rfl
  intro g' hg'
  have hg'' : g' = ("v0.6.4", ["A.sol"]) := by simpa using hg'
  subst hg''
  exact ⟨[], rfl⟩

/-! ## Claim C7 — discovery -/

/-- C7: the version groups of `findFiles` are exactly the top-level entries
of the contracts root that are directories and whose name starts with `"v"`
(in listing order); each group's file list is the sorted `.sol` glob below
that version directory; when no entry qualifies the mapping is empty (no
error is raised — `findFiles` is total); and every group's file list is
lexicographically sorted. -/
theorem c7_discovery (fs : Fs) :
    ((findFiles fs).contracts.map Prod.fst
      = (childNames fs contractsP).filter
          (fun n => dirExists fs (contractsP ++ [n]) && strStartsWith "v" n))
    ∧ (∀ v fls, (v, fls) ∈ (findFiles fs).contracts →
        dirExists fs (contractsP ++ [v]) = true ∧ strStartsWith "v" v = true
          ∧ fls = globSuffix fs (contractsP ++ [v]) ".sol")
    ∧ ((∀ n ∈ childNames fs contractsP,
          (dirExists fs (contractsP ++ [n]) && strStartsWith "v" n) = false) →
        (findFiles fs).contracts = [])
    ∧ (∀ v fls, (v, fls) ∈ (findFiles fs).contracts → isSortedLe fls = true) := by
  refine ⟨?_, ?_, ?_, ?_⟩
  · have hid : (Prod.fst ∘ fun v => (v, globSuffix fs (contractsP ++ [v]) ".sol")) = id :=
      funext fun _ => rfl
    simp [findFiles, List.map_map, hid]
  · intro v fls hmem
    simp only [findFiles, List.mem_map, List.mem_filter] at hmem
    obtain ⟨v', ⟨_, hcond⟩, heq⟩ := hmem
    rw [Prod.mk.injEq] at heq
    obtain ⟨h1, h2⟩ := heq
    subst h1
    rw [Bool.and_eq_true] at hcond
    exact ⟨hcond.1, hcond.2, h2.symm⟩
  · intro h
    have : (childNames fs contractsP).filter
        (fun n => dirExists fs (contractsP ++ [n]) && strStartsWith "v" n) = [] := by
      rw [List.filter_eq_nil_iff]
      intro n hn
      simp [h n hn]
    simp [findFiles, this]
  · intro v fls hmem
    simp only [findFiles, List.mem_map, List.mem_filter] at hmem
    obtain ⟨v', _, heq⟩ := hmem
    rw [Prod.mk.injEq] at heq
    rw [← heq.2]
    exact isSortedLe_sortStrs _

/-- C7 (witness): a root with one `v`-directory, a stray file, a stray
non-`v` directory, and two sol files listed in sorted order. -/
theorem c7_discovery_witness :
    (∀ v fls, (v, fls) ∈ (findFiles
        [(["contracts", "v0.8.9", "b", "Z.sol"], "z"),
         (["contracts", "notes.txt"], "n"),
         (["contracts", "lib", "util.sol"], "u"),
         (["contracts", "v0.8.9", "A.sol"], "a")]).contracts →
      isSortedLe fls = true)
    ∧ (findFiles
        [(["contracts", "v0.8.9", "b", "Z.sol"], "z"),
         (["contracts", "notes.txt"], "n"),
         (["contracts", "lib", "util.sol"], "u"),
         (["contracts", "v0.8.9", "A.sol"], "a")]).contracts.map Prod.fst
      = ["v0.8.9"] := by
  constructor
  · exact (c7_discovery _).2.2.2
  · rw [(c7_discovery _).1]
    decide

end CompileContracts

namespace CompileContracts

/-! ## Helper lemmas about paths, writes, and copies -/

theorem pathPrefix_iff {d p : Path} : d.isPrefixOf p = true ↔ d <+: p :=
  List.isPrefixOf_iff_prefix

theorem fsGet_fsWrite_self (fs : Fs) (p : Path) (c : String) :
    fsGet (fsWrite fs p c) p = some c := by
  simp [fsWrite, fsGet]

theorem fsGet_filter_ne (fs : Fs) (p q : Path) (h : q ≠ p) :
    fsGet (fs.filter (fun e => decide (e.1 ≠ p))) q = fsGet fs q := by
  induction fs with
  | nil => rfl
  | cons hd tl ih =>
    obtain ⟨r, c'⟩ := hd
    simp only [List.filter_cons]
    by_cases hr : r = p
    · subst hr
      rw [if_neg (by simp)]
      have hpq : ¬ r = q := fun hc => h hc.symm
      rw [ih]
      simp [fsGet, hpq]
    · rw [if_pos (by simpa using hr)]
      by_cases hrq : r = q
      · subst hrq
        simp [fsGet]
      · simp only [fsGet, if_neg hrq]
        exact ih

theorem fsGet_fsWrite_ne (fs : Fs) (p q : Path) (c : String) (h : q ≠ p) :
    fsGet (fsWrite fs p c) q = fsGet fs q := by
  have hpq : ¬ p = q := fun hc => h hc.symm
  simp only [fsWrite, fsGet, if_neg hpq]
  exact fsGet_filter_ne fs p q h

theorem fsGet_foldl_writes (l : List (Path × String)) (wp : Path × String → Path)
    (q : Path) (h : ∀ e ∈ l, wp e ≠ q) :
    ∀ base : Fs, fsGet (l.foldl (fun a e => fsWrite a (wp e) e.2) base) q = fsGet base q := by
  induction l with
  | nil => intro base; rfl
  | cons e l ih =>
    intro base
    simp only [List.foldl_cons]
    rw [ih (fun e' he' => h e' (List.mem_cons_of_mem _ he'))]
    exact fsGet_fsWrite_ne base (wp e) q e.2 (h e (List.mem_cons_self e l)).symm

theorem nodup_keys_fsWrite (fs : Fs) (p : Path) (c : String)
    (h : (fs.map Prod.fst).Nodup) : ((fsWrite fs p c).map Prod.fst).Nodup := by
  simp only [fsWrite, List.map_cons, List.nodup_cons]
  constructor
  · intro hmem
    simp only [List.mem_map, List.mem_filter, decide_eq_true_eq] at hmem
    obtain ⟨e, ⟨_, hne⟩, heq⟩ := hmem
    exact hne heq
  · have hsub : List.Sublist ((fs.filter (fun e => decide (e.1 ≠ p))).map Prod.fst)
        (fs.map Prod.fst) := (List.filter_sublist fs).map Prod.fst
    exact h.sublist hsub

theorem nodup_keys_foldl_writes (l : List (Path × String)) (wp : Path × String → Path) :
    ∀ base : Fs, (base.map Prod.fst).Nodup →
    (((l.foldl (fun a e => fsWrite a (wp e) e.2) base)).map Prod.fst).Nodup := by
  induction l with
  | nil => intro base h; exact h
  | cons e l ih =>
    intro base h
    simp only [List.foldl_cons]
    exact ih _ (nodup_keys_fsWrite base (wp e) e.2 h)

theorem exists_decomp_of_fsGet (fs : Fs) (p : Path) (c : String) (h : fsGet fs p = some c) :
    ∃ u v, fs = u ++ (p, c) :: v ∧ (∀ e ∈ u, e.1 ≠ p) := by
  induction fs with
  | nil => simp [fsGet] at h
  | cons hd tl ih =>
    obtain ⟨q, c'⟩ := hd
    by_cases hq : q = p
    · subst hq
      have hc : c' = c := by simpa [fsGet] using h
      subst hc
      exact ⟨[], tl, rfl, by simp⟩
    · have htl : fsGet tl p = some c := by simpa [fsGet, hq] using h
      obtain ⟨u, v, he, hu⟩ := ih htl
      refine ⟨(q, c') :: u, v, by simp [he], ?_⟩
      intro e he'
      rcases List.mem_cons.mp he' with h1 | h1
      · subst h1; exact hq
      · exact hu e h1

theorem append_ne_self_of_ne_nil (d : Path) (r : Path) (h : r ≠ []) : d ++ r ≠ d := by
  intro hc
  have := congrArg List.length hc
  simp only [List.length_append] at this
  have : r.length = 0 := by omega
  exact h (List.length_eq_zero.mp this)

/-- Unfolding of a successful `copyTree`. -/
theorem copyTree_ok_elim (fs : Fs) (src dst : Path) (fs₁ : Fs)
    (hok : copyTree fs src dst = .ok fs₁) :
    fs₁ = (fs.filter (fun e => src.isPrefixOf e.1)).foldl
      (fun a e => fsWrite a (dst ++ (e.1).drop src.length) e.2) fs := by
  simp only [copyTree] at hok
  split at hok
  · exact Except.noConfusion hok
  · injection hok with h
    exact h.symm

theorem copyTree_error_of_absent (fs : Fs) (src dst : Path)
    (h : ∀ e ∈ fs, src.isPrefixOf e.1 = false) :
    copyTree fs src dst = .error "ENOENT" := by
  unfold copyTree
  have : fs.filter (fun e => src.isPrefixOf e.1) = [] := by
    rw [List.filter_eq_nil_iff]
    intro e he
    simp [h e he]
  simp [this]

/-- A `copyTree` only writes below `dst`: lookups outside `dst` are unchanged. -/
theorem copyTree_get_outside (fs : Fs) (src dst : Path) (fs₁ : Fs) (q : Path)
    (hok : copyTree fs src dst = .ok fs₁) (hq : dst.isPrefixOf q = false) :
    fsGet fs₁ q = fsGet fs q := by
  have hfs₁ := copyTree_ok_elim fs src dst fs₁ hok
  rw [hfs₁]
  apply fsGet_foldl_writes
  intro e _ hc
  have : dst <+: q := by
    rw [← hc]
    exact ⟨(e.1).drop src.length, rfl⟩
  rw [← pathPrefix_iff] at this
  rw [this] at hq
  exact absurd hq (by simp)

/-- Copying a file at `src` (unique key) puts its exact content at `dst`. -/
theorem copyTree_get_dst (fs : Fs) (src dst : Path) (fs₁ : Fs) (c : String)
    (hget : fsGet fs src = some c) (hnodup : (fs.map Prod.fst).Nodup)
    (hok : copyTree fs src dst = .ok fs₁) :
    fsGet fs₁ dst = some c := by
  have hfs₁ := copyTree_ok_elim fs src dst fs₁ hok
  obtain ⟨u, v, hfs, -⟩ := exists_decomp_of_fsGet fs src c hget
  have hsrcKey : src ∉ (u.map Prod.fst) ∧ src ∉ (v.map Prod.fst) := by
    rw [hfs] at hnodup
    simp only [List.map_append, List.map_cons] at hnodup
    have h1 := List.Nodup.of_append_right hnodup
    rw [List.nodup_cons] at h1
    constructor
    · intro hmem
      have hdisj := List.disjoint_of_nodup_append hnodup
      exact hdisj hmem (List.mem_cons_self _ _)
    · exact fun hmem => h1.1 hmem
  have hsub : fs.filter (fun e => src.isPrefixOf e.1)
      = (u.filter (fun e => src.isPrefixOf e.1)) ++ (src, c)
        :: (v.filter (fun e => src.isPrefixOf e.1)) := by
    rw [hfs, List.filter_append, List.filter_cons]
    have : src.isPrefixOf src = true := pathPrefix_iff.mpr (List.prefix_refl src)
    simp [this]
  have hwp : ∀ e ∈ v.filter (fun e => src.isPrefixOf e.1),
      dst ++ (e.1).drop src.length ≠ dst := by
    intro e he
    have hmemv : e ∈ v := (List.mem_filter.mp he).1
    have hpre : src.isPrefixOf e.1 = true := (List.mem_filter.mp he).2
    have hne : e.1 ≠ src := by
      intro hc
      exact hsrcKey.2 (by rw [← hc]; exact List.mem_map_of_mem Prod.fst hmemv)
    apply append_ne_self_of_ne_nil
    intro hc
    apply hne
    obtain ⟨t, ht⟩ := pathPrefix_iff.mp hpre
    rw [← ht]
    have : t = [] := by
      have := congrArg List.length ht
      have hlen : (e.1).length = src.length := by
        have hdrop := congrArg List.length hc
        simp only [List.length_drop] at hdrop
        have hge : src.length ≤ (e.1).length := by
          rw [← ht]; simp
        simp at hdrop
        omega
      simp only [List.length_append] at this
      have : t.length = 0 := by omega
      exact List.length_eq_zero.mp this
    simp [this]
  rw [hfs₁, hsub, List.foldl_append, List.foldl_cons]
  rw [fsGet_foldl_writes _ _ _ hwp]
  have : dst ++ src.drop src.length = dst := by simp
  rw [this]
  exact fsGet_fsWrite_self _ dst c

theorem copyTree_nodup (fs : Fs) (src dst : Path) (fs₁ : Fs)
    (hok : copyTree fs src dst = .ok fs₁) (h : (fs.map Prod.fst).Nodup) :
    (fs₁.map Prod.fst).Nodup := by
  have hfs₁ := copyTree_ok_elim fs src dst fs₁ hok
  rw [hfs₁]
  exact nodup_keys_foldl_writes _ _ fs h

theorem mem_insertSorted {x y : String} {l : List String} :
    x ∈ insertSorted y l ↔ x = y ∨ x ∈ l := by
  induction l with
  | nil => simp [insertSorted]
  | cons z zs ih =>
    by_cases h : strLe y z = true
    · simp [insertSorted, h]
    · have h' : strLe y z = false := by revert h; cases strLe y z <;> simp
      simp only [insertSorted, h', Bool.false_eq_true, if_false, List.mem_cons, ih]
      tauto

theorem mem_sortStrs {x : String} {l : List String} : x ∈ sortStrs l ↔ x ∈ l := by
  induction l with
  | nil => simp [sortStrs]
  | cons y ys ih => simp [sortStrs, mem_insertSorted, ih]

theorem mem_dedupFirst {x : String} {l : List String} : x ∈ dedupFirst l ↔ x ∈ l := by
  induction l with
  | nil => simp [dedupFirst]
  | cons y ys ih =>
    simp only [dedupFirst, List.mem_cons, List.mem_filter, ih, decide_eq_true_eq]
    constructor
    · rintro (h | ⟨h, -⟩)
      · exact Or.inl h
      · exact Or.inr h
    · rintro (h | h)
      · exact Or.inl h
      · by_cases hxy : x = y
        · exact Or.inl hxy
        · exact Or.inr ⟨h, hxy⟩

end CompileContracts

namespace CompileContracts

/-! ## `strReplaceFirst` on a clean suffix occurrence -/

theorem isPrefixOf_false_of_no_early (sep : List Char) (hsep : sep ≠ []) (c : Char)
    (a' b : List Char) (h1 : sep.isPrefixOf (c :: (a' ++ sep.dropLast)) = false) :
    sep.isPrefixOf (c :: (a' ++ sep ++ b)) = false := by
  by_contra hcon
  have htrue : sep.isPrefixOf (c :: (a' ++ sep ++ b)) = true := by
    revert hcon; cases sep.isPrefixOf (c :: (a' ++ sep ++ b)) <;> simp
  rw [isPrefixOf_eq_true_iff] at htrue
  have hrest : sep.dropLast ++ [sep.getLast hsep] = sep :=
    List.dropLast_append_getLast hsep
  have hmid : (c :: (a' ++ sep.dropLast)) <+: (c :: (a' ++ sep ++ b)) := by
    refine ⟨sep.getLast hsep :: b, ?_⟩
    calc (c :: (a' ++ sep.dropLast)) ++ sep.getLast hsep :: b
        = c :: (a' ++ ((sep.dropLast ++ [sep.getLast hsep]) ++ b)) := by
          simp [List.append_assoc]
      _ = c :: (a' ++ (sep ++ b)) := by rw [hrest]
      _ = c :: (a' ++ sep ++ b) := by rw [List.append_assoc]
  have hone : 1 ≤ sep.length := by
    cases sep with
    | nil => exact absurd rfl hsep
    | cons x xs => simp
  have hlen2 : sep.length ≤ (c :: (a' ++ sep.dropLast)).length := by
    simp only [List.length_cons, List.length_append, List.length_dropLast]
    omega
  have hfin := prefixTrans htrue hmid hlen2
  rw [← isPrefixOf_eq_true_iff] at hfin
  rw [hfin] at h1
  exact absurd h1 (by simp)

theorem replaceFirstF_append (sep repl : List Char) (hsep : sep ≠ []) :
    ∀ (a : List Char) (fuel : Nat) (b : List Char),
    containsSeq sep (a ++ sep.dropLast) = false →
    (a ++ sep ++ b).length ≤ fuel →
    replaceFirstF sep repl fuel (a ++ sep ++ b) = a ++ repl ++ b := by
  intro a
  induction a with
  | nil =>
    intro fuel b _ hlen
    obtain ⟨s0, sep', hse⟩ : ∃ s0 sep', sep = s0 :: sep' := by
      cases sep with
      | nil => exact absurd rfl hsep
      | cons x xs => exact ⟨x, xs, rfl⟩
    subst hse
    cases fuel with
    | zero => simp at hlen
    | succ f =>
      have hshape : ([] : List Char) ++ (s0 :: sep') ++ b = s0 :: (sep' ++ b) := by simp
      rw [hshape]
      have hpre' : (s0 :: sep').isPrefixOf (s0 :: (sep' ++ b)) = true := by
        rw [isPrefixOf_eq_true_iff]
        have hx : s0 :: (sep' ++ b) = (s0 :: sep') ++ b := by simp
        rw [hx]
        exact List.prefix_append _ _
      simp only [replaceFirstF, hpre', if_true]
      have hdrop : (s0 :: (sep' ++ b)).drop (s0 :: sep').length = b := by
        have hx : s0 :: (sep' ++ b) = (s0 :: sep') ++ b := by simp
        rw [hx]
        exact List.drop_left _ _
      rw [hdrop]
      simp
  | cons c a' ih =>
    intro fuel b ha hlen
    cases fuel with
    | zero => simp at hlen
    | succ f =>
      have hshape : (c :: a') ++ sep ++ b = c :: (a' ++ sep ++ b) := by simp
      rw [hshape]
      obtain ⟨h1, h2⟩ := containsSeq_cons_false (by simpa using ha)
      have hpre := isPrefixOf_false_of_no_early sep hsep c a' b h1
      simp only [replaceFirstF, hpre, Bool.false_eq_true, if_false]
      have hlen' : (a' ++ sep ++ b).length ≤ f := by
        simp only [List.cons_append, List.length_cons, List.length_append] at hlen ⊢
        omega
      rw [ih f b h2 hlen']
      simp

/-- `q ++ ".json"` with no earlier `.json` occurrence: `replace` rewrites
exactly the final extension. -/
theorem strReplaceFirst_json (q : String)
    (h : strContainsSeq ".json" (q ++ ".jso") = false) :
    strReplaceFirst ".json" ".abi" (q ++ ".json") = q ++ ".abi" := by
  apply str_ext
  have hdata : (q ++ ".json").data = q.data ++ (".json" : String).data ++ [] := by
    simp [data_append]
  have hdrop : ((".json" : String).data).dropLast = (".jso" : String).data := rfl
  have h' : containsSeq (".json" : String).data
      (q.data ++ ((".json" : String).data).dropLast) = false := by
    rw [hdrop]
    have hx : (q ++ ".jso").data = q.data ++ (".jso" : String).data := data_append _ _
    simpa [strContainsSeq, hx] using h
  simp only [strReplaceFirst]
  rw [hdata, replaceFirstF_append (".json" : String).data (".abi" : String).data (by simp)
    q.data _ [] h' (by simp [hdata])]
  simp [data_append]

/-! ## The `copyPrebuiltABIs` fold -/

/-- Once the destination holds the content (and the source file is intact),
the remaining copies never clobber it: every write of a later copy lies below
that copy's own destination, which is not a prefix of `dstP` (for a different
prebuilt) or rewrites the same content (for a duplicate of `p`). -/
theorem copyPrebuilt_preserve (p : String) (c : String) (ps : List String) :
    ∀ (fs fs' : Fs),
    (fs.map Prod.fst).Nodup →
    fsGet fs (contractsP ++ parseRel p) = some c →
    fsGet fs (outP ++ parseRel (strReplaceFirst ".json" ".abi" p)) = some c →
    outP.isPrefixOf (contractsP ++ parseRel p) = false →
    (∀ p' ∈ ps, p' ≠ p →
      (outP ++ parseRel (strReplaceFirst ".json" ".abi" p')).isPrefixOf
        (outP ++ parseRel (strReplaceFirst ".json" ".abi" p)) = false) →
    copyPrebuiltABIs ps fs = .ok fs' →
    fsGet fs' (outP ++ parseRel (strReplaceFirst ".json" ".abi" p)) = some c := by
  induction ps with
  | nil =>
    intro fs fs' _ _ hdst _ _ hrun
    simp only [copyPrebuiltABIs] at hrun
    injection hrun with h
    rw [← h]
    exact hdst
  | cons p0 rest ih =>
    intro fs fs' hnodup hsrc hdst houtside hd hrun
    simp only [copyPrebuiltABIs] at hrun
    rcases hct : copyTree fs (contractsP ++ parseRel p0)
        (outP ++ parseRel (strReplaceFirst ".json" ".abi" p0)) with e | fs1
    · rw [hct] at hrun; exact Except.noConfusion hrun
    · rw [hct] at hrun
      have hsrcPres : fsGet fs1 (contractsP ++ parseRel p) = some c := by
        rw [copyTree_get_outside fs _ _ fs1 _ hct ?_]
        · exact hsrc
        · by_contra hcon
          have htrue : (outP ++ parseRel (strReplaceFirst ".json" ".abi" p0)).isPrefixOf
              (contractsP ++ parseRel p) = true := by
            revert hcon
            cases (outP ++ parseRel (strReplaceFirst ".json" ".abi" p0)).isPrefixOf
              (contractsP ++ parseRel p) <;> simp
          rw [pathPrefix_iff] at htrue
          have hout : outP <+: contractsP ++ parseRel p :=
            List.IsPrefix.trans (List.prefix_append _ _) htrue
          rw [← pathPrefix_iff] at hout
          rw [hout] at houtside
          exact absurd houtside (by simp)
      have hdstPres : fsGet fs1 (outP ++ parseRel (strReplaceFirst ".json" ".abi" p))
          = some c := by
        by_cases hp0 : p0 = p
        · subst hp0
          exact copyTree_get_dst fs _ _ fs1 c hsrc hnodup hct
        · rw [copyTree_get_outside fs _ _ fs1 _ hct
            (hd p0 (List.mem_cons_self p0 rest) hp0)]
          exact hdst
      exact ih fs1 fs' (copyTree_nodup fs _ _ fs1 hct hnodup) hsrcPres hdstPres houtside
        (fun p' hp' => hd p' (List.mem_cons_of_mem _ hp')) hrun

/-- Reaching `p` in the prebuilt list: its copy lands the source content at
its destination, and the remaining copies preserve it. -/
theorem copyPrebuilt_reach (p : String) (c : String)
    (houtside : outP.isPrefixOf (contractsP ++ parseRel p) = false) :
    ∀ (ps : List String) (fs fs' : Fs),
    (fs.map Prod.fst).Nodup →
    p ∈ ps →
    fsGet fs (contractsP ++ parseRel p) = some c →
    (∀ p' ∈ ps, p' ≠ p →
      (outP ++ parseRel (strReplaceFirst ".json" ".abi" p')).isPrefixOf
        (outP ++ parseRel (strReplaceFirst ".json" ".abi" p)) = false) →
    copyPrebuiltABIs ps fs = .ok fs' →
    fsGet fs' (outP ++ parseRel (strReplaceFirst ".json" ".abi" p)) = some c := by
  intro ps
  induction ps with
  | nil =>
    intro fs fs' _ hp
    exact absurd hp (List.not_mem_nil p)
  | cons p0 rest ih =>
    intro fs fs' hnodup hp hsrc hdst hrun
    simp only [copyPrebuiltABIs] at hrun
    rcases hct : copyTree fs (contractsP ++ parseRel p0)
        (outP ++ parseRel (strReplaceFirst ".json" ".abi" p0)) with e | fs1
    · rw [hct] at hrun; exact Except.noConfusion hrun
    · rw [hct] at hrun
      have hsrcPres : fsGet fs1 (contractsP ++ parseRel p) = some c := by
        rw [copyTree_get_outside fs _ _ fs1 _ hct ?_]
        · exact hsrc
        · by_contra hcon
          have htrue : (outP ++ parseRel (strReplaceFirst ".json" ".abi" p0)).isPrefixOf
              (contractsP ++ parseRel p) = true := by
            revert hcon
            cases (outP ++ parseRel (strReplaceFirst ".json" ".abi" p0)).isPrefixOf
              (contractsP ++ parseRel p) <;> simp
          rw [pathPrefix_iff] at htrue
          have hout : outP <+: contractsP ++ parseRel p :=
            List.IsPrefix.trans (List.prefix_append _ _) htrue
          rw [← pathPrefix_iff] at hout
          rw [hout] at houtside
          exact absurd houtside (by simp)
      have hnodup1 : (fs1.map Prod.fst).Nodup := copyTree_nodup fs _ _ fs1 hct hnodup
      by_cases hp0 : p0 = p
      · subst hp0
        have hdst1 : fsGet fs1 (outP ++ parseRel (strReplaceFirst ".json" ".abi" p0))
            = some c := copyTree_get_dst fs _ _ fs1 c hsrc hnodup hct
        exact copyPrebuilt_preserve p0 c rest fs1 fs' hnodup1 hsrcPres hdst1 houtside
          (fun p' hp' => hdst p' (List.mem_cons_of_mem _ hp')) hrun
      · have hpmem : p ∈ rest := by
          rcases List.mem_cons.mp hp with h1 | h1
          · exact absurd h1.symm hp0
          · exact h1
        exact ih fs1 fs' hnodup1 hpmem hsrcPres
          (fun p' hp' => hdst p' (List.mem_cons_of_mem _ hp')) hrun

/-! ## Claims C6 and C10 — prebuilt-artifact copying -/

/-- C6 (counterexample): `filepath.replace('.json', '.abi')` replaces the
*first* occurrence, not the extension.  The prebuilt `a.json.json` (which the
`**/*.json` glob matches) is copied to `compiled/a.abi.json`, not to the
extension-rewrite `compiled/a.json.abi`, so the output tree does not contain
the file at the claimed path. -/
theorem c6_counterexample :
    copyPrebuiltABIs ["a.json.json"] [(["contracts", "a.json.json"], "D")]
      = .ok [(["contracts", "compiled", "a.abi.json"], "D"), (["contracts", "a.json.json"], "D")]
    ∧ fsGet [(["contracts", "compiled", "a.abi.json"], "D"), (["contracts", "a.json.json"], "D")]
        (outP ++ ["a.json.abi"]) = none
    ∧ fsGet [(["contracts", "compiled", "a.abi.json"], "D"), (["contracts", "a.json.json"], "D")]
        (outP ++ ["a.abi.json"]) = some "D" :=
  ⟨rfl, by decide, by decide⟩

/-- C6 (amended): `copyPrebuiltABIs` copies each prebuilt to the output tree
at the path obtained by replacing the *first* `.json` occurrence with
`.abi`; when `.json` occurs only as the final extension (no earlier
occurrence), this is exactly the extension-only rewrite, and the copied
content is byte-identical to the source (under unique filesystem keys, a
source outside the output tree, and no other prebuilt whose destination is a
prefix of this one's). -/
theorem c6_copy_amended (ps : List String) (fs : Fs) (p q c : String) (fs' : Fs)
    (hnodup : (fs.map Prod.fst).Nodup)
    (hp : p ∈ ps)
    (hsplit : p = q ++ ".json")
    (hearly : strContainsSeq ".json" (q ++ ".jso") = false)
    (hsrc : fsGet fs (contractsP ++ parseRel p) = some c)
    (houtside : outP.isPrefixOf (contractsP ++ parseRel p) = false)
    (hdst : ∀ p' ∈ ps, p' ≠ p →
      (outP ++ parseRel (strReplaceFirst ".json" ".abi" p')).isPrefixOf
        (outP ++ parseRel (strReplaceFirst ".json" ".abi" p)) = false)
    (hrun : copyPrebuiltABIs ps fs = .ok fs') :
    fsGet fs' (outP ++ parseRel (q ++ ".abi")) = some c := by
  have hrepl : strReplaceFirst ".json" ".abi" p = q ++ ".abi" := by
    rw [hsplit]
    exact strReplaceFirst_json q hearly
  rw [← hrepl]
  exact copyPrebuilt_reach p c houtside ps fs fs' hnodup hp hsrc hdst hrun

/-- C6 (witness): the spec's own scenario `legacy/Old.json` — one prebuilt,
copied to `compiled/legacy/Old.abi` with identical bytes. -/
theorem c6_copy_amended_witness :
    fsGet [(["contracts", "compiled", "legacy", "Old.abi"], "BYTES"),
           (["contracts", "legacy", "Old.json"], "BYTES")]
      (outP ++ parseRel ("legacy/Old" ++ ".abi")) = some "BYTES" := by
  refine c6_copy_amended ["legacy/Old.json"] [(["contracts", "legacy", "Old.json"], "BYTES")]
    "legacy/Old.json" "legacy/Old" "BYTES"
    [(["contracts", "compiled", "legacy", "Old.abi"], "BYTES"),
     (["contracts", "legacy", "Old.json"], "BYTES")]
    (by decide) (by decide) (by decide) (by decide) (by decide) (by decide) ?_ rfl
  intro p' hp' hne
  have hp'' : p' = "legacy/Old.json" := by simpa using hp'
  exact absurd hp'' hne

/-- C10 (counterexample): a stale `compiled/old.json` under the output
directory *is* globbed into the prebuilt set (computed before the cleanup),
but the run does not copy it back into the fresh output tree: `removeOutDir`
deletes the copy source, so `copyPrebuiltABIs` throws `ENOENT` and the whole
run fails. -/
theorem c10_counterexample :
    "compiled/old.json" ∈ (findFiles
      [(["contracts", "v0.6.4", "A.sol"], "src"),
       (["contracts", "compiled", "old.json"], "X")]).prebuiltAbis
    ∧ errOf (mainModel
        (fun c => if c = mkCmd "v0.6.4" ["A.sol"]
          then .ok [(["contracts", "compiled", "v0.6.4", "contracts_v0_6_4_A_sol_A.abi"], "ABI")]
          else .ok [])
        [(["contracts", "v0.6.4", "A.sol"], "src"),
         (["contracts", "compiled", "old.json"], "X")]) = some "ENOENT" := by
  constructor
  · decide
  · rfl

/-- C10 (amended): the prebuilt set is indeed globbed before the output
directory is deleted, so `.json` files under the output directory are
included in it; but instead of being copied back, such a stale prebuilt makes
the run fail: by copy time its source (deleted with the output directory and
not recreated) is missing, and `copySync` throws `ENOENT`. -/
theorem c10_stale_prebuilt (fs : Fs) (r : Path) (lastSeg c : String)
    (ps : List String) (p : String)
    (hmem : (contractsP ++ ("compiled" :: r), c) ∈ fs)
    (hlast : ("compiled" :: r).getLast? = some lastSeg)
    (hjson : strEndsWith ".json" lastSeg = true)
    (habsent : ∀ e ∈ fs, (contractsP ++ parseRel p).isPrefixOf e.1 = false) :
    renderPath ("compiled" :: r) ∈ (findFiles fs).prebuiltAbis
    ∧ copyPrebuiltABIs (p :: ps) fs = .error "ENOENT" := by
  constructor
  · have hunder : isUnder contractsP (contractsP ++ ("compiled" :: r)) = true := by
      unfold isUnder
      rw [Bool.and_eq_true]
      refine ⟨pathPrefix_iff.mpr (List.prefix_append _ _), ?_⟩
      simp [contractsP]
    have hfmem : (contractsP ++ ("compiled" :: r), c)
        ∈ fs.filter (fun e => isUnder contractsP e.1) :=
      List.mem_filter.mpr ⟨hmem, hunder⟩
    have hmapmem : ("compiled" :: r) ∈ (fs.filter (fun e => isUnder contractsP e.1)).map
        (fun e => (e.1).drop contractsP.length) := by
      have hmm := List.mem_map_of_mem
        (fun e : Path × String => (e.1).drop contractsP.length) hfmem
      simpa [List.drop_left] using hmm
    have hflat : ("compiled" :: r) ∈ relEntries fs contractsP := by
      simp only [relEntries, List.mem_flatMap]
      refine ⟨"compiled" :: r, hmapmem, ?_⟩
      rw [List.mem_map]
      refine ⟨("compiled" :: r).length - 1, ?_, ?_⟩
      · rw [List.mem_range]; simp
      · have hsucc : ("compiled" :: r).length - 1 + 1 = ("compiled" :: r).length := by simp
        rw [hsucc, List.take_length]
    have hfilter : ("compiled" :: r) ∈ (relEntries fs contractsP).filter
        (fun rel => match rel.getLast? with
          | some n => strEndsWith ".json" n
          | none => false) := by
      rw [List.mem_filter]
      refine ⟨hflat, ?_⟩
      rw [hlast]
      exact hjson
    simp only [findFiles, globSuffix]
    rw [mem_sortStrs, mem_dedupFirst]
    exact List.mem_map_of_mem renderPath hfilter
  · simp only [copyPrebuiltABIs]
    rw [copyTree_error_of_absent fs _ _ habsent]

/-- C10 (witness): the concrete stale-prebuilt filesystem of the
counterexample, fed through the amended statement. -/
theorem c10_stale_prebuilt_witness :
    renderPath ("compiled" :: ["old.json"])
      ∈ (findFiles [(["contracts", "v0.6.4", "A.sol"], "src"),
          (["contracts", "compiled", "old.json"], "X")]).prebuiltAbis
    ∧ copyPrebuiltABIs ("compiled/gone.json" :: [])
        [(["contracts", "v0.6.4", "A.sol"], "src"),
         (["contracts", "compiled", "old.json"], "X")] = .error "ENOENT" :=
  c10_stale_prebuilt
    [(["contracts", "v0.6.4", "A.sol"], "src"),
     (["contracts", "compiled", "old.json"], "X")]
    ["old.json"] "old.json" "X" [] "compiled/gone.json"
    (by decide) (by decide) (by decide) (by decide)

end CompileContracts

namespace CompileContracts

/-! ## Claim C8 — idempotence (counterexample) -/

/-- C8 (counterexample): running `main` twice is *not* idempotent on an
unchanged source tree with a deterministic compiler.  The prebuilt
`p.json.json` is copied by the first run to `compiled/p.abi.json`; the second
run's `**/*.json` glob (which runs over the output of the first run, before
the cleanup) picks that file up as a prebuilt, `removeOutDir` deletes it, and
the final copy step then fails with `ENOENT`: the second run crashes instead
of reproducing the first run's output tree. -/
theorem c8_counterexample :
    isOkE (mainModel
      (fun c => if c = mkCmd "v0.6.4" ["A.sol"]
        then .ok [(["contracts", "compiled", "v0.6.4", "contracts_v0_6_4_A_sol_A.abi"], "ABI")]
        else .ok [])
      [(["contracts", "v0.6.4", "A.sol"], "src"), (["contracts", "p.json.json"], "DATA")])
      = true
    ∧ errOf (mainTwice
      (fun c => if c = mkCmd "v0.6.4" ["A.sol"]
        then .ok [(["contracts", "compiled", "v0.6.4", "contracts_v0_6_4_A_sol_A.abi"], "ABI")]
        else .ok [])
      [(["contracts", "v0.6.4", "A.sol"], "src"), (["contracts", "p.json.json"], "DATA")])
      = some "ENOENT" := by
  constructor
  · rfl
  · rfl

end CompileContracts

namespace CompileContracts

/-! ## Region plumbing for the determinism argument (C8)

Every read the pipeline performs factors through one of two regions of the
filesystem: the source area (`srcTree`) and the output tree (`outTree`);
every write it performs lands either under the output tree or outside the
contracts root entirely. -/

theorem filter_factor {α : Type} (q r : α → Bool) (l : List α)
    (h : ∀ e, q e = true → r e = true) :
    l.filter q = (l.filter r).filter q := by
  induction l with
  | nil => rfl
  | cons x xs ih =>
    by_cases hq : q x = true
    · simp only [List.filter_cons, hq, h x hq, if_pos trivial, ih]
    · have hq' : q x = false := by revert hq; cases q x <;> simp
      by_cases hr : r x = true
      · simp [List.filter_cons, hq', hr, ih]
      · have hr' : r x = false := by revert hr; cases r x <;> simp
        simp [List.filter_cons, hq', hr', ih]

theorem any_factor {α : Type} (q r : α → Bool) (l : List α)
    (h : ∀ e, q e = true → r e = true) :
    l.any q = (l.filter r).any q := by
  induction l with
  | nil => rfl
  | cons x xs ih =>
    by_cases hq : q x = true
    · simp [List.any_cons, hq, List.filter_cons, h x hq]
    · have hq' : q x = false := by revert hq; cases q x <;> simp
      by_cases hr : r x = true
      · simp [List.any_cons, hq', List.filter_cons, hr, ih]
      · have hr' : r x = false := by revert hr; cases r x <;> simp
        simp [List.any_cons, hq', List.filter_cons, hr', ih]

theorem contractsPre_of_outPre {p : Path} (h : outP.isPrefixOf p = true) :
    contractsP.isPrefixOf p = true := by
  rw [pathPrefix_iff] at h ⊢
  exact List.IsPrefix.trans ⟨["compiled"], rfl⟩ h

/-- An entry below `contracts/<n>/…` with `n ≠ "compiled"` is in the source
region. -/
theorem srcPred_of_under_version {n : String} (hn : n ≠ "compiled") {rest : Path} {p : Path}
    (h : (contractsP ++ n :: rest).isPrefixOf p = true) :
    (contractsP.isPrefixOf p && !(outP.isPrefixOf p)) = true := by
  rw [pathPrefix_iff] at h
  obtain ⟨t, ht⟩ := h
  rw [← ht]
  rw [Bool.and_eq_true]
  constructor
  · rw [pathPrefix_iff]
    exact ⟨n :: rest ++ t, by simp [contractsP]⟩
  · suffices hs : outP.isPrefixOf (contractsP ++ n :: (rest ++ t)) = false by simp [hs]
    by_contra hcon
    have htrue : outP.isPrefixOf (contractsP ++ n :: (rest ++ t)) = true := by
      revert hcon
      cases outP.isPrefixOf (contractsP ++ n :: (rest ++ t)) <;> simp
    rw [pathPrefix_iff] at htrue
    have hshape : contractsP ++ n :: (rest ++ t) = "contracts" :: n :: (rest ++ t) := rfl
    rw [hshape] at htrue
    have h1 := (List.cons_prefix_cons.mp htrue).2
    have h2 := (List.cons_prefix_cons.mp h1).1
    exact hn h2.symm

theorem outPred_of_under_out {d : Path} (hd : outP.isPrefixOf d = true) {p : Path}
    (h : d.isPrefixOf p = true) : outP.isPrefixOf p = true := by
  rw [pathPrefix_iff] at hd h ⊢
  exact hd.trans h

theorem filter_under_src {a b : Fs} (hS : srcTree a = srcTree b) {n : String}
    (hn : n ≠ "compiled") (rest : Path) (q : Path × String → Bool)
    (hq : ∀ e, q e = true → (contractsP ++ n :: rest).isPrefixOf e.1 = true) :
    a.filter q = b.filter q := by
  rw [filter_factor q (fun e => contractsP.isPrefixOf e.1 && !(outP.isPrefixOf e.1)) a
    (fun e he => srcPred_of_under_version hn (hq e he))]
  rw [filter_factor q (fun e => contractsP.isPrefixOf e.1 && !(outP.isPrefixOf e.1)) b
    (fun e he => srcPred_of_under_version hn (hq e he))]
  exact congrArg (List.filter q) hS

theorem any_under_src {a b : Fs} (hS : srcTree a = srcTree b) {n : String}
    (hn : n ≠ "compiled") (rest : Path) (q : Path × String → Bool)
    (hq : ∀ e, q e = true → (contractsP ++ n :: rest).isPrefixOf e.1 = true) :
    a.any q = b.any q := by
  rw [any_factor q (fun e => contractsP.isPrefixOf e.1 && !(outP.isPrefixOf e.1)) a
    (fun e he => srcPred_of_under_version hn (hq e he))]
  rw [any_factor q (fun e => contractsP.isPrefixOf e.1 && !(outP.isPrefixOf e.1)) b
    (fun e he => srcPred_of_under_version hn (hq e he))]
  exact congrArg (List.any · q) hS

theorem filter_under_out {a b : Fs} (hO : outTree a = outTree b)
    (q : Path × String → Bool) (hq : ∀ e, q e = true → outP.isPrefixOf e.1 = true) :
    a.filter q = b.filter q := by
  rw [filter_factor q (fun e => outP.isPrefixOf e.1) a hq,
    filter_factor q (fun e => outP.isPrefixOf e.1) b hq]
  exact congrArg (List.filter q) hO

theorem any_under_out {a b : Fs} (hO : outTree a = outTree b)
    (q : Path × String → Bool) (hq : ∀ e, q e = true → outP.isPrefixOf e.1 = true) :
    a.any q = b.any q := by
  rw [any_factor q (fun e => outP.isPrefixOf e.1) a hq,
    any_factor q (fun e => outP.isPrefixOf e.1) b hq]
  exact congrArg (List.any · q) hO

/-! ### Effect of writes on the two regions -/

theorem srcTree_fsWrite_of_out (fs : Fs) (p : Path) (c : String)
    (hp : outP.isPrefixOf p = true) : srcTree (fsWrite fs p c) = srcTree fs := by
  unfold srcTree fsWrite
  rw [List.filter_cons, if_neg (by simp [hp]), List.filter_filter]
  apply List.filter_congr
  intro e _
  by_cases hsp : (contractsP.isPrefixOf e.1 && !(outP.isPrefixOf e.1)) = true
  · have hne : e.1 ≠ p := by
      intro hc
      rw [Bool.and_eq_true] at hsp
      rw [hc, hp] at hsp
      simp at hsp
    simp [hsp, hne]
  · have hsp' : (contractsP.isPrefixOf e.1 && !(outP.isPrefixOf e.1)) = false := by
      revert hsp; cases (contractsP.isPrefixOf e.1 && !(outP.isPrefixOf e.1)) <;> simp
    simp [hsp']

theorem srcTree_fsWrite_of_not_contracts (fs : Fs) (p : Path) (c : String)
    (hp : contractsP.isPrefixOf p = false) : srcTree (fsWrite fs p c) = srcTree fs := by
  unfold srcTree fsWrite
  rw [List.filter_cons, if_neg (by simp [hp]), List.filter_filter]
  apply List.filter_congr
  intro e _
  by_cases hsp : (contractsP.isPrefixOf e.1 && !(outP.isPrefixOf e.1)) = true
  · have hne : e.1 ≠ p := by
      intro hc
      rw [Bool.and_eq_true] at hsp
      rw [hc, hp] at hsp
      simp at hsp
    simp [hsp, hne]
  · have hsp' : (contractsP.isPrefixOf e.1 && !(outP.isPrefixOf e.1)) = false := by
      revert hsp; cases (contractsP.isPrefixOf e.1 && !(outP.isPrefixOf e.1)) <;> simp
    simp [hsp']

theorem outTree_fsWrite_of_out (fs : Fs) (p : Path) (c : String)
    (hp : outP.isPrefixOf p = true) :
    outTree (fsWrite fs p c) = (p, c) :: (outTree fs).filter (fun e => decide (e.1 ≠ p)) := by
  unfold outTree fsWrite
  rw [List.filter_cons, if_pos (by simp [hp])]
  congr 1
  rw [List.filter_comm]

theorem outTree_fsWrite_of_not_out (fs : Fs) (p : Path) (c : String)
    (hp : outP.isPrefixOf p = false) : outTree (fsWrite fs p c) = outTree fs := by
  unfold outTree fsWrite
  rw [List.filter_cons, if_neg (by simp [hp]), List.filter_filter]
  apply List.filter_congr
  intro e _
  by_cases hsp : outP.isPrefixOf e.1 = true
  · have hne : e.1 ≠ p := by
      intro hc
      rw [hc, hp] at hsp
      exact Bool.noConfusion hsp
    simp [hsp, hne]
  · have hsp' : outP.isPrefixOf e.1 = false := by
      revert hsp; cases outP.isPrefixOf e.1 <;> simp
    simp [hsp']

/-- Folding a sequence of writes below the output tree preserves the source
restriction and transforms the output restriction identically on both sides. -/
theorem foldl_writes_agree (wp : Path × String → Path) :
    ∀ (ws : List (Path × String)) (a b : Fs),
    srcTree a = srcTree b → outTree a = outTree b →
    (∀ e ∈ ws, outP.isPrefixOf (wp e) = true) →
    srcTree (ws.foldl (fun x e => fsWrite x (wp e) e.2) a)
      = srcTree (ws.foldl (fun x e => fsWrite x (wp e) e.2) b)
    ∧ outTree (ws.foldl (fun x e => fsWrite x (wp e) e.2) a)
      = outTree (ws.foldl (fun x e => fsWrite x (wp e) e.2) b) := by
  intro ws
  induction ws with
  | nil => intro a b hS hO _; exact ⟨hS, hO⟩
  | cons e rest ih =>
    intro a b hS hO hscope
    simp only [List.foldl_cons]
    apply ih
    · rw [srcTree_fsWrite_of_out a _ _ (hscope e (List.mem_cons_self e rest)),
        srcTree_fsWrite_of_out b _ _ (hscope e (List.mem_cons_self e rest))]
      exact hS
    · rw [outTree_fsWrite_of_out a _ _ (hscope e (List.mem_cons_self e rest)),
        outTree_fsWrite_of_out b _ _ (hscope e (List.mem_cons_self e rest)), hO]
    · exact fun e' he' => hscope e' (List.mem_cons_of_mem _ he')

/-- Folding writes entirely outside the contracts root (the truffle fixture
copy) leaves both restrictions unchanged. -/
theorem foldl_writes_outside (wp : Path × String → Path) :
    ∀ (ws : List (Path × String)) (base : Fs),
    (∀ e ∈ ws, contractsP.isPrefixOf (wp e) = false) →
    srcTree (ws.foldl (fun x e => fsWrite x (wp e) e.2) base) = srcTree base
    ∧ outTree (ws.foldl (fun x e => fsWrite x (wp e) e.2) base) = outTree base := by
  intro ws
  induction ws with
  | nil => intro base _; exact ⟨rfl, rfl⟩
  | cons e rest ih =>
    intro base h
    simp only [List.foldl_cons]
    have hhead := h e (List.mem_cons_self e rest)
    have hout : outP.isPrefixOf (wp e) = false := by
      by_contra hcon
      have htrue : outP.isPrefixOf (wp e) = true := by
        revert hcon; cases outP.isPrefixOf (wp e) <;> simp
      rw [contractsPre_of_outPre htrue] at hhead
      exact Bool.noConfusion hhead
    obtain ⟨h1, h2⟩ := ih (fsWrite base (wp e) e.2) (fun e' he' => h e' (List.mem_cons_of_mem _ he'))
    rw [h1, h2, srcTree_fsWrite_of_not_contracts base _ _ hhead,
      outTree_fsWrite_of_not_out base _ _ hout]
    exact ⟨rfl, rfl⟩

end CompileContracts

namespace CompileContracts

/-! ## Discovery reads only the source region and the prebuilt glob (C8) -/

theorem prefix_of_isUnder {d p : Path} (h : isUnder d p = true) : d.isPrefixOf p = true := by
  have h' := h
  simp only [isUnder, Bool.and_eq_true, decide_eq_true_eq] at h'
  exact h'.1

theorem length_lt_of_isUnder {d p : Path} (h : isUnder d p = true) : d.length < p.length := by
  have h' := h
  simp only [isUnder, Bool.and_eq_true, decide_eq_true_eq] at h'
  exact h'.2

theorem ne_compiled_of_startsWith_v {n : String} (h : strStartsWith "v" n = true) :
    n ≠ "compiled" := by
  intro hc
  rw [hc] at h
  exact absurd h (by decide)

theorem dedupFirst_filter (q : String → Bool) (l : List String) :
    (dedupFirst l).filter q = dedupFirst (l.filter q) := by
  induction l with
  | nil => rfl
  | cons y ys ih =>
    by_cases hq : q y = true
    · simp only [dedupFirst, List.filter_cons, hq, if_pos trivial]
      congr 1
      rw [List.filter_comm, ih]
    · have hq' : q y = false := by revert hq; cases q y <;> simp
      simp only [dedupFirst, List.filter_cons, hq', Bool.false_eq_true, if_false]
      rw [List.filter_comm, ih]
      apply List.filter_eq_self.mpr
      intro x hx
      have hqx : q x = true := (List.mem_filter.mp (mem_dedupFirst.mp hx)).2
      have hxy : x ≠ y := by
        intro hc
        rw [hc, hq'] at hqx
        exact Bool.noConfusion hqx
      simp [hxy]

theorem under_contracts_shape {p : Path} (h : isUnder contractsP p = true) :
    ∃ t0 trest, p = "contracts" :: t0 :: trest := by
  have hpre := prefix_of_isUnder h
  have hlen := length_lt_of_isUnder h
  rw [pathPrefix_iff] at hpre
  obtain ⟨t, ht⟩ := hpre
  cases t with
  | nil =>
    rw [← ht] at hlen
    simp [contractsP] at hlen
  | cons t0 trest => exact ⟨t0, trest, by rw [← ht]; rfl⟩

theorem dirExists_src_eq {a b : Fs} (hS : srcTree a = srcTree b) {n : String}
    (hn : n ≠ "compiled") (rest : Path) :
    dirExists a (contractsP ++ n :: rest) = dirExists b (contractsP ++ n :: rest) := by
  unfold dirExists
  exact any_under_src hS hn rest _ (fun e he => prefix_of_isUnder he)

/-- The version-directory filter of discovery is determined by the source
region. -/
theorem versionDirs_eq {a b : Fs} (hS : srcTree a = srcTree b) :
    (childNames a contractsP).filter
      (fun n => dirExists a (contractsP ++ [n]) && strStartsWith "v" n)
    = (childNames b contractsP).filter
      (fun n => dirExists b (contractsP ++ [n]) && strStartsWith "v" n) := by
  have hdirEq : ∀ n : String, strStartsWith "v" n = true →
      dirExists a (contractsP ++ [n]) = dirExists b (contractsP ++ [n]) :=
    fun n h => dirExists_src_eq hS (ne_compiled_of_startsWith_v h) []
  have key : ∀ (fs : Fs) (P : String → Bool),
      (childNames fs contractsP).filter P
        = dedupFirst ((fs.filter (fun e =>
            P ((e.1).getD contractsP.length "") && isUnder contractsP e.1)).map
          (fun e => (e.1).getD contractsP.length "")) := by
    intro fs P
    unfold childNames
    rw [dedupFirst_filter, List.filter_map, List.filter_filter]
    rfl
  rw [key a (fun n => dirExists a (contractsP ++ [n]) && strStartsWith "v" n),
    key b (fun n => dirExists b (contractsP ++ [n]) && strStartsWith "v" n)]
  have hpt : ∀ e : Path × String,
      ((dirExists a (contractsP ++ [(e.1).getD contractsP.length ""])
          && strStartsWith "v" ((e.1).getD contractsP.length "")) && isUnder contractsP e.1)
      = ((dirExists b (contractsP ++ [(e.1).getD contractsP.length ""])
          && strStartsWith "v" ((e.1).getD contractsP.length "")) && isUnder contractsP e.1) := by
    intro e
    by_cases hv : strStartsWith "v" ((e.1).getD contractsP.length "") = true
    · rw [hdirEq _ hv]
    · have hv' : strStartsWith "v" ((e.1).getD contractsP.length "") = false := by
        revert hv
        cases strStartsWith "v" ((e.1).getD contractsP.length "") <;> simp
      rw [hv']
      simp
  have himp : ∀ (fs : Fs) (e : Path × String),
      ((dirExists fs (contractsP ++ [(e.1).getD contractsP.length ""])
          && strStartsWith "v" ((e.1).getD contractsP.length "")) && isUnder contractsP e.1) = true →
      (contractsP.isPrefixOf e.1 && !(outP.isPrefixOf e.1)) = true := by
    intro fs e he
    rw [Bool.and_eq_true, Bool.and_eq_true] at he
    obtain ⟨⟨hde, hv⟩, hu⟩ := he
    clear hde
    obtain ⟨t0, trest, hshape⟩ := under_contracts_shape hu
    have hg : (e.1).getD contractsP.length "" = t0 := by
      rw [hshape]
      rfl
    rw [hg] at hv
    have hpre : (contractsP ++ t0 :: []).isPrefixOf e.1 = true := by
      rw [pathPrefix_iff, hshape]
      exact ⟨trest, rfl⟩
    exact srcPred_of_under_version (ne_compiled_of_startsWith_v hv) hpre
  rw [List.filter_congr (fun e _ => hpt e)]
  rw [filter_factor _ (fun e => contractsP.isPrefixOf e.1 && !(outP.isPrefixOf e.1)) a
    (himp b), filter_factor _ (fun e => contractsP.isPrefixOf e.1 && !(outP.isPrefixOf e.1)) b
    (himp b)]
  rw [show a.filter (fun e => contractsP.isPrefixOf e.1 && !(outP.isPrefixOf e.1)) = srcTree a
    from rfl]
  rw [show b.filter (fun e => contractsP.isPrefixOf e.1 && !(outP.isPrefixOf e.1)) = srcTree b
    from rfl]
  rw [hS]

/-- The sol glob of a version directory is determined by the source region. -/
theorem globSuffix_src_eq {a b : Fs} (hS : srcTree a = srcTree b) {n : String}
    (hn : n ≠ "compiled") (rest : Path) (suffix : String) :
    globSuffix a (contractsP ++ n :: rest) suffix
      = globSuffix b (contractsP ++ n :: rest) suffix := by
  unfold globSuffix relEntries
  rw [filter_under_src hS hn rest _ (fun e he => prefix_of_isUnder he)]

theorem findFiles_version_startsWith (fs : Fs) :
    ∀ g ∈ (findFiles fs).contracts, strStartsWith "v" g.1 = true := by
  intro g hg
  simp only [findFiles, List.mem_map, List.mem_filter] at hg
  obtain ⟨v, ⟨-, hcond⟩, heq⟩ := hg
  rw [← heq]
  rw [Bool.and_eq_true] at hcond
  exact hcond.2

/-- Discovery is determined by the source region together with the prebuilt
`**/*.json` glob. -/
theorem findFiles_eq {a b : Fs} (hS : srcTree a = srcTree b)
    (hJ : globSuffix a contractsP ".json" = globSuffix b contractsP ".json") :
    findFiles a = findFiles b := by
  have hvd := versionDirs_eq hS
  have hmap : ((childNames b contractsP).filter
      (fun n => dirExists b (contractsP ++ [n]) && strStartsWith "v" n)).map
        (fun v => (v, globSuffix a (contractsP ++ [v]) ".sol"))
      = ((childNames b contractsP).filter
      (fun n => dirExists b (contractsP ++ [n]) && strStartsWith "v" n)).map
        (fun v => (v, globSuffix b (contractsP ++ [v]) ".sol")) := by
    apply List.map_congr_left
    intro v hv
    have hvv : strStartsWith "v" v = true := by
      have hc := (List.mem_filter.mp hv).2
      rw [Bool.and_eq_true] at hc
      exact hc.2
    rw [globSuffix_src_eq hS (ne_compiled_of_startsWith_v hvv) [] ".sol"]
  show Files.mk _ _ = Files.mk _ _
  rw [hvd, hmap, hJ]

end CompileContracts

namespace CompileContracts

/-! ## Stage agreement lemmas (C8) -/

theorem srcTree_filter_comm (fs : Fs) (q : Path × String → Bool) :
    srcTree (fs.filter q) = (srcTree fs).filter q := by
  unfold srcTree
  rw [List.filter_comm]

theorem outTree_filter_comm (fs : Fs) (q : Path × String → Bool) :
    outTree (fs.filter q) = (outTree fs).filter q := by
  unfold outTree
  rw [List.filter_comm]

theorem srcTree_removeTree_out (fs : Fs) : srcTree (removeTree fs outP) = srcTree fs := by
  unfold removeTree
  rw [srcTree_filter_comm]
  apply List.filter_eq_self.mpr
  intro e he
  have hp := (List.mem_filter.mp he).2
  rw [Bool.and_eq_true] at hp
  exact hp.2

theorem outTree_removeTree_out (fs : Fs) : outTree (removeTree fs outP) = [] := by
  unfold removeTree
  rw [outTree_filter_comm]
  rw [List.filter_eq_nil_iff]
  intro e he
  have hp := (List.mem_filter.mp he).2
  simp [hp]

theorem srcTree_filter_not_under_out (fs : Fs) {src : Path}
    (hsrc : outP.isPrefixOf src = true) :
    srcTree (fs.filter (fun e => !(src.isPrefixOf e.1))) = srcTree fs := by
  rw [srcTree_filter_comm]
  apply List.filter_eq_self.mpr
  intro e he
  have hp := (List.mem_filter.mp he).2
  rw [Bool.and_eq_true] at hp
  have hout : outP.isPrefixOf e.1 = false := by simpa using hp.2
  by_cases hsp : src.isPrefixOf e.1 = true
  · rw [outPred_of_under_out hsrc hsp] at hout
    exact absurd hout (by simp)
  · have hsp' : src.isPrefixOf e.1 = false := by
      revert hsp; cases src.isPrefixOf e.1 <;> simp
    simp [hsp']

theorem out_prefix_append (dst : Path) (r : Path) (hdst : outP.isPrefixOf dst = true) :
    outP.isPrefixOf (dst ++ r) = true := by
  rw [pathPrefix_iff] at hdst ⊢
  exact hdst.trans (List.prefix_append dst r)

/-- `copyTree` agreement: equal copied subtrees, and a destination below the
output tree. -/
theorem copyTree_agree {a b : Fs} (hS : srcTree a = srcTree b) (hO : outTree a = outTree b)
    (src dst : Path)
    (hsub : a.filter (fun e => src.isPrefixOf e.1) = b.filter (fun e => src.isPrefixOf e.1))
    (hdst : outP.isPrefixOf dst = true) :
    ExAgree (copyTree a src dst) (copyTree b src dst) := by
  unfold copyTree
  rw [hsub]
  by_cases hempty : (b.filter (fun e => src.isPrefixOf e.1)).isEmpty = true
  · simp [hempty, ExAgree]
  · have hempty' : (b.filter (fun e => src.isPrefixOf e.1)).isEmpty = false := by
      revert hempty; cases (b.filter (fun e => src.isPrefixOf e.1)).isEmpty <;> simp
    simp only [hempty', Bool.false_eq_true, if_false, ExAgree]
    exact foldl_writes_agree (fun e => dst ++ (e.1).drop src.length) _ a b hS hO
      (fun e _ => out_prefix_append dst _ hdst)

/-- `moveTree` agreement: an equal moved subtree below the output tree, with
a destination below the output tree. -/
theorem moveTree_agree {a b : Fs} (hS : srcTree a = srcTree b) (hO : outTree a = outTree b)
    (src dst : Path) (hsrc : outP.isPrefixOf src = true) (hdst : outP.isPrefixOf dst = true) :
    ExAgree (moveTree a src dst) (moveTree b src dst) := by
  unfold moveTree
  have hsub : a.filter (fun e => src.isPrefixOf e.1) = b.filter (fun e => src.isPrefixOf e.1) :=
    filter_under_out hO _ (fun e he => outPred_of_under_out hsrc he)
  rw [hsub]
  by_cases hempty : (b.filter (fun e => src.isPrefixOf e.1)).isEmpty = true
  · simp [hempty, ExAgree]
  · have hempty' : (b.filter (fun e => src.isPrefixOf e.1)).isEmpty = false := by
      revert hempty; cases (b.filter (fun e => src.isPrefixOf e.1)).isEmpty <;> simp
    simp only [hempty', Bool.false_eq_true, if_false, ExAgree]
    apply foldl_writes_agree (fun e => dst ++ (e.1).drop src.length) _ _ _
      ?_ ?_ (fun e _ => out_prefix_append dst _ hdst)
    · rw [srcTree_filter_not_under_out a hsrc, srcTree_filter_not_under_out b hsrc]
      exact hS
    · rw [outTree_filter_comm, outTree_filter_comm, hO]

end CompileContracts

namespace CompileContracts

theorem generateABIs_agree (exec : Exec)
    (hscope : ∀ cmd ws, exec cmd = .ok ws → ∀ w ∈ ws, outP.isPrefixOf w.1 = true) :
    ∀ (gs : List (String × List String)) (a b : Fs),
    srcTree a = srcTree b → outTree a = outTree b →
    ExAgree (generateABIs exec gs a) (generateABIs exec gs b) := by
  intro gs
  induction gs with
  | nil =>
    intro a b hS hO
    simp only [generateABIs, ExAgree]
    exact ⟨hS, hO⟩
  | cons g gs ih =>
    intro a b hS hO
    obtain ⟨v, fls⟩ := g
    simp only [generateABIs]
    rcases hex : exec (mkCmd v fls) with e | ws
    · simp [ExAgree]
    · apply ih
      · exact (foldl_writes_agree Prod.fst ws a b hS hO
          (fun w hw => hscope _ ws hex w hw)).1
      · exact (foldl_writes_agree Prod.fst ws a b hS hO
          (fun w hw => hscope _ ws hex w hw)).2

theorem probeFs_eq {a b : Fs} (hS : srcTree a = srcTree b) {v : String}
    (hv : v ≠ "compiled") :
    probeFs a (contractsP ++ [v]) = probeFs b (contractsP ++ [v]) := by
  funext s
  unfold probeFs
  have hshape : (contractsP ++ [v]) ++ parseRel s = contractsP ++ v :: parseRel s := by
    simp
  rw [hshape]
  exact dirExists_src_eq hS hv (parseRel s)

theorem dirExists_out_eq {a b : Fs} (hO : outTree a = outTree b) {d : Path}
    (hd : outP.isPrefixOf d = true) : dirExists a d = dirExists b d := by
  unfold dirExists
  exact any_under_out hO _ (fun e he => outPred_of_under_out hd (prefix_of_isUnder he))

theorem childNames_out_eq {a b : Fs} (hO : outTree a = outTree b) {d : Path}
    (hd : outP.isPrefixOf d = true) : childNames a d = childNames b d := by
  unfold childNames
  rw [filter_under_out hO _ (fun e he => outPred_of_under_out hd (prefix_of_isUnder he))]

theorem renameEntries_agree (v : String) (hv : v ≠ "compiled") :
    ∀ (names : List String) (a b : Fs),
    srcTree a = srcTree b → outTree a = outTree b →
    ExAgree (renameEntries v names a) (renameEntries v names b) := by
  intro names
  induction names with
  | nil =>
    intro a b hS hO
    simp only [renameEntries, ExAgree]
    exact ⟨hS, hO⟩
  | cons n ns ih =>
    intro a b hS hO
    simp only [renameEntries]
    rw [probeFs_eq hS hv]
    rcases hrp : renameParse (probeFs b (contractsP ++ [v])) v n with _ | ⟨fp, cn, ex⟩
    · simp [ExAgree]
    · have hsrcp : outP.isPrefixOf (outP ++ [v] ++ [n]) = true := by
        rw [pathPrefix_iff]
        refine ⟨[v] ++ [n], by simp⟩
      have hdstp : outP.isPrefixOf (outP ++ [v] ++ parseRel (newNameOf fp cn ex)) = true := by
        rw [pathPrefix_iff]
        refine ⟨[v] ++ parseRel (newNameOf fp cn ex), by simp⟩
      have hmv := moveTree_agree hS hO (outP ++ [v] ++ [n])
        (outP ++ [v] ++ parseRel (newNameOf fp cn ex)) hsrcp hdstp
      rcases hma : moveTree a (outP ++ [v] ++ [n])
          (outP ++ [v] ++ parseRel (newNameOf fp cn ex)) with e1 | a1
        <;> rcases hmb : moveTree b (outP ++ [v] ++ [n])
          (outP ++ [v] ++ parseRel (newNameOf fp cn ex)) with e2 | b1
        <;> rw [hma, hmb] at hmv
        <;> simp only [ExAgree] at hmv
        <;> simp only [hma, hmb]
      · simp [ExAgree, hmv]
      · exact ih a1 b1 hmv.1 hmv.2

theorem renameOutputNames_agree :
    ∀ (gs : List (String × List String)), (∀ g ∈ gs, strStartsWith "v" g.1 = true) →
    ∀ a b : Fs, srcTree a = srcTree b → outTree a = outTree b →
    ExAgree (renameOutputNames gs a) (renameOutputNames gs b) := by
  intro gs
  induction gs with
  | nil =>
    intro _ a b hS hO
    simp only [renameOutputNames, ExAgree]
    exact ⟨hS, hO⟩
  | cons g gs ih =>
    intro hvs a b hS hO
    obtain ⟨v, fls⟩ := g
    have hv : v ≠ "compiled" :=
      ne_compiled_of_startsWith_v (hvs (v, fls) (List.mem_cons_self _ _))
    simp only [renameOutputNames]
    have houtv : outP.isPrefixOf (outP ++ [v]) = true := by
      rw [pathPrefix_iff]
      exact ⟨[v], rfl⟩
    rw [dirExists_out_eq hO houtv, childNames_out_eq hO houtv]
    by_cases hd : dirExists b (outP ++ [v]) = true
    · rw [if_pos hd, if_pos hd]
      have hre := renameEntries_agree v hv (childNames b (outP ++ [v])) a b hS hO
      rcases hra : renameEntries v (childNames b (outP ++ [v])) a with e1 | a1
        <;> rcases hrb : renameEntries v (childNames b (outP ++ [v])) b with e2 | b1
        <;> rw [hra, hrb] at hre
        <;> simp only [ExAgree] at hre
        <;> simp only [hra, hrb]
      · simp [ExAgree, hre]
      · exact ih (fun g' hg' => hvs g' (List.mem_cons_of_mem _ hg')) a1 b1 hre.1 hre.2
    · rw [if_neg hd, if_neg hd]
      simp [ExAgree]

theorem contracts_not_prefix_of_head_ne {d0 : String} (h : d0 ≠ "contracts") (r : Path) :
    contractsP.isPrefixOf (d0 :: r) = false := by
  by_contra hcon
  have htrue : contractsP.isPrefixOf (d0 :: r) = true := by
    revert hcon; cases contractsP.isPrefixOf (d0 :: r) <;> simp
  rw [pathPrefix_iff] at htrue
  have := (List.cons_prefix_cons.mp htrue).1
  exact h this.symm

theorem copyTruffleV5_agree {a b : Fs} (hS : srcTree a = srcTree b)
    (hO : outTree a = outTree b) :
    ExAgree (copyTruffleV5 a) (copyTruffleV5 b) := by
  unfold copyTruffleV5 copyTree
  have hsub : a.filter (fun e => (contractsP ++ ["v0.6.4"]).isPrefixOf e.1)
      = b.filter (fun e => (contractsP ++ ["v0.6.4"]).isPrefixOf e.1) :=
    filter_under_src hS (show "v0.6.4" ≠ "compiled" by decide) [] _ (fun e he => he)
  rw [hsub]
  by_cases hempty : (b.filter (fun e => (contractsP ++ ["v0.6.4"]).isPrefixOf e.1)).isEmpty
      = true
  · simp [hempty, ExAgree]
  · have hempty' : (b.filter
        (fun e => (contractsP ++ ["v0.6.4"]).isPrefixOf e.1)).isEmpty = false := by
      revert hempty
      cases (b.filter (fun e => (contractsP ++ ["v0.6.4"]).isPrefixOf e.1)).isEmpty <;> simp
    simp only [hempty', Bool.false_eq_true, if_false, ExAgree]
    have houtside : ∀ e : Path × String, contractsP.isPrefixOf
        ((truffleP ++ ["v0.6.4"]) ++ (e.1).drop (contractsP ++ ["v0.6.4"]).length) = false := by
      intro e
      exact contracts_not_prefix_of_head_ne (by decide) _
    obtain ⟨ha1, ha2⟩ := foldl_writes_outside
      (fun e => (truffleP ++ ["v0.6.4"]) ++ (e.1).drop (contractsP ++ ["v0.6.4"]).length)
      (b.filter (fun e => (contractsP ++ ["v0.6.4"]).isPrefixOf e.1)) a
      (fun e _ => houtside e)
    obtain ⟨hb1, hb2⟩ := foldl_writes_outside
      (fun e => (truffleP ++ ["v0.6.4"]) ++ (e.1).drop (contractsP ++ ["v0.6.4"]).length)
      (b.filter (fun e => (contractsP ++ ["v0.6.4"]).isPrefixOf e.1)) b
      (fun e _ => houtside e)
    rw [ha1, ha2, hb1, hb2]
    exact ⟨hS, hO⟩

theorem copyPrebuiltABIs_agree :
    ∀ (ps : List String), (∀ p ∈ ps, parseRel p ≠ []) →
    ∀ a b : Fs, srcTree a = srcTree b → outTree a = outTree b →
    ExAgree (copyPrebuiltABIs ps a) (copyPrebuiltABIs ps b) := by
  intro ps
  induction ps with
  | nil =>
    intro _ a b hS hO
    simp only [copyPrebuiltABIs, ExAgree]
    exact ⟨hS, hO⟩
  | cons p ps ih =>
    intro hps a b hS hO
    simp only [copyPrebuiltABIs]
    obtain ⟨n, rest, hnr⟩ : ∃ n rest, parseRel p = n :: rest := by
      rcases h : parseRel p with _ | ⟨n, rest⟩
      · exact absurd h (hps p (List.mem_cons_self _ _))
      · exact ⟨n, rest, rfl⟩
    have hsub : a.filter (fun e => (contractsP ++ parseRel p).isPrefixOf e.1)
        = b.filter (fun e => (contractsP ++ parseRel p).isPrefixOf e.1) := by
      rw [hnr]
      by_cases hn : n = "compiled"
      · subst hn
        apply filter_under_out hO
        intro e he
        apply outPred_of_under_out ?_ he
        rw [pathPrefix_iff]
        exact ⟨rest, rfl⟩
      · exact filter_under_src hS hn rest _ (fun e he => he)
    have hdst : outP.isPrefixOf (outP ++ parseRel (strReplaceFirst ".json" ".abi" p)) = true := by
      rw [pathPrefix_iff]
      exact ⟨parseRel (strReplaceFirst ".json" ".abi" p), rfl⟩
    have hct := copyTree_agree hS hO (contractsP ++ parseRel p)
      (outP ++ parseRel (strReplaceFirst ".json" ".abi" p)) hsub hdst
    rcases hca : copyTree a (contractsP ++ parseRel p)
        (outP ++ parseRel (strReplaceFirst ".json" ".abi" p)) with e1 | a1
      <;> rcases hcb : copyTree b (contractsP ++ parseRel p)
        (outP ++ parseRel (strReplaceFirst ".json" ".abi" p)) with e2 | b1
      <;> rw [hca, hcb] at hct
      <;> simp only [ExAgree] at hct
      <;> simp only [hca, hcb]
    · simp [ExAgree, hct]
    · exact ih (fun p' hp' => hps p' (List.mem_cons_of_mem _ hp')) a1 b1 hct.1 hct.2

end CompileContracts

namespace CompileContracts

/-- A whole run's outcome is determined by the source region and the
prebuilt `**/*.json` glob (given a compiler oracle that writes below the
output tree): two starting filesystems agreeing on those produce the same
error, or output trees that are byte-identical. -/
theorem mainModel_agree (exec : Exec)
    (hscope : ∀ cmd ws, exec cmd = .ok ws → ∀ w ∈ ws, outP.isPrefixOf w.1 = true)
    (a b : Fs) (hS : srcTree a = srcTree b)
    (hJ : globSuffix a contractsP ".json" = globSuffix b contractsP ".json")
    (hps : ∀ p ∈ globSuffix b contractsP ".json", parseRel p ≠ []) :
    ExAgree (mainModel exec a) (mainModel exec b) := by
  have hff : findFiles a = findFiles b := findFiles_eq hS hJ
  simp only [mainModel]
  rw [hff]
  simp only [removeOutDir_eq]
  have h1 : srcTree (removeTree a outP) = srcTree (removeTree b outP) := by
    rw [srcTree_removeTree_out, srcTree_removeTree_out]
    exact hS
  have h2 : outTree (removeTree a outP) = outTree (removeTree b outP) := by
    rw [outTree_removeTree_out, outTree_removeTree_out]
  have hgen := generateABIs_agree exec hscope (findFiles b).contracts _ _ h1 h2
  rcases hga : generateABIs exec (findFiles b).contracts (removeTree a outP) with e1 | a2
    <;> rcases hgb : generateABIs exec (findFiles b).contracts (removeTree b outP) with e2 | b2
    <;> rw [hga, hgb] at hgen
    <;> simp only [ExAgree] at hgen
    <;> simp only [hga, hgb]
  · simp [ExAgree, hgen]
  · have hren := renameOutputNames_agree (findFiles b).contracts
      (findFiles_version_startsWith b) a2 b2 hgen.1 hgen.2
    rcases hra : renameOutputNames (findFiles b).contracts a2 with e3 | a3
      <;> rcases hrb : renameOutputNames (findFiles b).contracts b2 with e4 | b3
      <;> rw [hra, hrb] at hren
      <;> simp only [ExAgree] at hren
      <;> simp only [hra, hrb]
    · simp [ExAgree, hren]
    · have htr := copyTruffleV5_agree hren.1 hren.2
      rcases hta : copyTruffleV5 a3 with e5 | a4
        <;> rcases htb : copyTruffleV5 b3 with e6 | b4
        <;> rw [hta, htb] at htr
        <;> simp only [ExAgree] at htr
        <;> simp only [hta, htb]
      · simp [ExAgree, htr]
      · exact copyPrebuiltABIs_agree (findFiles b).prebuiltAbis hps a4 b4 htr.1 htr.2

/-- C8 (amended): running `main` twice produces byte-identical output trees
*provided* the first run leaves the discovery inputs unchanged — the source
region untouched and the prebuilt `**/*.json` glob the same (in particular,
no `.json` file under the freshly produced output tree) — the compiler oracle
writes only below the output tree, and the glob's relative paths are
nonempty.  The counterexample shows the proviso is necessary. -/
theorem c8_idempotence_amended (exec : Exec) (fs fs1 fs2 : Fs)
    (hscope : ∀ cmd ws, exec cmd = .ok ws → ∀ w ∈ ws, outP.isPrefixOf w.1 = true)
    (h1 : mainModel exec fs = .ok fs1)
    (hsrc : srcTree fs1 = srcTree fs)
    (hjson : globSuffix fs1 contractsP ".json" = globSuffix fs contractsP ".json")
    (hps : ∀ p ∈ globSuffix fs contractsP ".json", parseRel p ≠ [])
    (h2 : mainModel exec fs1 = .ok fs2) :
    outTree fs2 = outTree fs1 := by
  have hag := mainModel_agree exec hscope fs1 fs hsrc hjson hps
  rw [h1, h2] at hag
  simp only [ExAgree] at hag
  exact hag.2

/-- C8 (witness for the amended claim): a source tree with one version
directory and one well-behaved prebuilt; both runs succeed and the output
trees coincide. -/
theorem c8_idempotence_amended_witness :
    outTree [(["contracts", "compiled", "good.abi"], "J"),
      (["packages", "target-truffle-v5-test", "contracts", "v0.6.4", "A.sol"], "src"),
      (["contracts", "compiled", "v0.6.4", "A", "A.abi"], "ABI"),
      (["contracts", "v0.6.4", "A.sol"], "src"),
      (["contracts", "good.json"], "J")]
    = outTree [(["contracts", "compiled", "good.abi"], "J"),
      (["packages", "target-truffle-v5-test", "contracts", "v0.6.4", "A.sol"], "src"),
      (["contracts", "compiled", "v0.6.4", "A", "A.abi"], "ABI"),
      (["contracts", "v0.6.4", "A.sol"], "src"),
      (["contracts", "good.json"], "J")] := by
  refine c8_idempotence_amended
    (fun c => if c = mkCmd "v0.6.4" ["A.sol"]
      then .ok [(["contracts", "compiled", "v0.6.4", "contracts_v0_6_4_A_sol_A.abi"], "ABI")]
      else .ok [])
    [(["contracts", "v0.6.4", "A.sol"], "src"), (["contracts", "good.json"], "J")]
    _ _ ?_ rfl (by decide) (by decide) (by decide) rfl
  intro cmd ws h w hw
  simp only [] at h
  by_cases hc : cmd = mkCmd "v0.6.4" ["A.sol"]
  · rw [if_pos hc] at h
    injection h with h
    rw [← h] at hw
    simp only [List.mem_singleton] at hw
    rw [hw]
    decide
  · rw [if_neg hc] at h
    injection h with h
    rw [← h] at hw
    simp at hw

end CompileContracts
